import Mathlib

/-!
Shallow embedding of the `votingsys` / `prefvoting` vote-tallying core.

Conventions used throughout:
  * Python `Counter` objects are embedded as insertion-ordered association
    lists `List (String × Int)`; `Counter.most_common(1)[0]` is the first
    entry (in insertion order) holding the maximal count, because
    `most_common` sorts stably by count descending.
  * Python float comparisons `num / total > 0.5` and `num / total > t` are
    embedded as exact comparisons over `ℚ`; `0.5` and the thresholds used
    by the code are exactly representable and division is correctly
    rounded, so the float test agrees with the exact rational test for all
    realistic integer counts.  Division by zero (`total == 0`) is embedded
    as an explicit `zeroDivision` error, mirroring Python's
    `ZeroDivisionError`.
  * Exceptions are embedded as an `Except VoteErr` result; each raise site
    of the source maps to one constructor.
  * Polars DataFrames are embedded as a header (list of column names)
    together with a list of rows of integers (`DF` below).
-/

/-- The error kinds raised by the vote-tallying core: validation failures,
winner-rule failures, and the Python runtime errors that the code can hit
(`ZeroDivisionError` on a zero-voter majority query, `IndexError` /
`ValueError` on empty sequences). -/
inductive VoteErr where
  /-- `ValueError` from `check_non_negative_count`, citing the offending
  candidate and its (negative) count. -/
  | negativeCount (candidate : String) (value : Int) : VoteErr
  /-- `ValueError` from `check_non_empty_count` on an empty tally. -/
  | emptyCounter : VoteErr
  /-- `WinnerNotFoundError`. -/
  | winnerNotFound : VoteErr
  /-- `MultipleWinnersFoundError`, carrying the tied winners. -/
  | multipleWinnersFound (winners : List String) : VoteErr
  /-- `ValueError` for an invalid caller-supplied threshold. -/
  | invalidArgument : VoteErr
  /-- Python `ZeroDivisionError` (integer division by a zero voter total). -/
  | zeroDivision : VoteErr
  /-- Python `IndexError` (subscripting an empty sequence). -/
  | indexError : VoteErr
  /-- Python `ValueError` from `max()` on an empty sequence. -/
  | emptySequence : VoteErr
  /-- `ValueError` from `check_column_exist`: the column is missing. -/
  | missingColumn (col : String) : VoteErr
  /-- `ValueError` from `check_column_missing`: the column already exists. -/
  | existingColumn (col : String) : VoteErr
  /-- Failure of `find_max_in_mapping` on an empty mapping. -/
  | emptyMapping : VoteErr
deriving Repr, DecidableEq

instance {ε α : Type} [DecidableEq ε] [DecidableEq α] : DecidableEq (Except ε α) := fun a b =>
  match a, b with
  | .error e1, .error e2 =>
    if h : e1 = e2 then isTrue (by rw [h])
    else isFalse (by intro hh; cases hh; exact h rfl)
  | .error _, .ok _ => isFalse (by intro hh; cases hh)
  | .ok _, .error _ => isFalse (by intro hh; cases hh)
  | .ok v1, .ok v2 =>
    if h : v1 = v2 then isTrue (by rw [h])
    else isFalse (by intro hh; cases hh; exact h rfl)

/-- A Python `Counter` with string keys: an insertion-ordered association
list from candidate to count. -/
abbrev Tally := List (String × Int)

/-- `Counter.total()`: the sum of all counts. -/
def countTotal (c : Tally) : Int := (c.map Prod.snd).sum

/-- `counter.most_common(1)`, as an optional entry: the first entry in
insertion order whose count is maximal (later entries replace the running
best only when strictly greater, matching the stable descending sort used
by `Counter.most_common`). -/
def most_common1 : Tally → Option (String × Int)
  | [] => none
  | kv :: rest =>
    some ((most_common1 rest).elim kv (fun best => if best.2 > kv.2 then best else kv))

/-- `max` of a list of integers, `none` on the empty list (where Python
`max()` raises `ValueError`). -/
def maxVal : List Int → Option Int
  | [] => none
  | v :: vs => some ((maxVal vs).elim v (fun m => max v m))

/-- `max` with default `0`; used only to phrase theorems about nonempty
tallies, where the default is never reached. -/
def maxValD (l : List Int) : Int := (maxVal l).getD 0

/-- The highest count appearing in a tally (`0` for the empty tally). -/
def maxCount (c : Tally) : Int := maxValD (c.map Prod.snd)

/-- `check_non_negative_count` (`votingsys/utils/counter.py`, mirrored by
`prefvoting/utils/counter.py`): scan the items in insertion order and fail
on the first negative count, citing the candidate and the value. -/
def check_non_negative_count : Tally → Except VoteErr Unit
  | [] => .ok ()
  | (k, v) :: rest =>
    if v < 0 then .error (.negativeCount k v) else check_non_negative_count rest

/-- Modelled from the spec: `check_non_empty_count` is imported by
`votingsys/vote/single_mark.py` but its definition
(`votingsys/utils/counter.py`) is not under `src/`.  Per §4.1 of the spec
it "fails with `ValidationError` if the tally has zero entries". -/
def check_non_empty_count (c : Tally) : Except VoteErr Unit :=
  if c.isEmpty then .error .emptyCounter else .ok ()

/-- The `SingleMarkVote` data: the wrapped counter. -/
structure SingleMarkVote where
  counter : Tally
deriving Repr, DecidableEq

/-- `SingleMarkVote.__init__` (votingsys variant): validate non-negative
counts, then non-emptiness, then store the counter. -/
def SingleMarkVote.init (c : Tally) : Except VoteErr SingleMarkVote := do
  let _ ← check_non_negative_count c
  let _ ← check_non_empty_count c
  pure ⟨c⟩

/-- `SingleMarkVote.get_num_candidates`: `len(self._counter)`. -/
def SingleMarkVote.get_num_candidates (v : SingleMarkVote) : Int :=
  v.counter.length

/-- `SingleMarkVote.get_num_voters`: `self._counter.total()`. -/
def SingleMarkVote.get_num_voters (v : SingleMarkVote) : Int :=
  countTotal v.counter

/-- `SingleMarkVote.absolute_majority_winner`: take the most common entry
(`IndexError` on an empty counter), then test `num_votes / total_votes >
0.5` (`ZeroDivisionError` when the voter total is zero), returning the
candidate on success and raising `WinnerNotFoundError` otherwise. -/
def SingleMarkVote.absolute_majority_winner (v : SingleMarkVote) : Except VoteErr String :=
  let total := countTotal v.counter
  match most_common1 v.counter with
  | none => .error .indexError
  | some (cand, num) =>
    if total = 0 then .error .zeroDivision
    else if (1 : ℚ) / 2 < (num : ℚ) / (total : ℚ) then .ok cand
    else .error .winnerNotFound

/-- `SingleMarkVote.super_majority_winner`: reject `threshold <= 0.5`
before touching the tally, then proceed as the absolute-majority rule with
the caller-supplied threshold. -/
def SingleMarkVote.super_majority_winner (v : SingleMarkVote) (threshold : ℚ) :
    Except VoteErr String :=
  if threshold ≤ 1 / 2 then .error .invalidArgument
  else
    let total := countTotal v.counter
    match most_common1 v.counter with
    | none => .error .indexError
    | some (cand, num) =>
      if total = 0 then .error .zeroDivision
      else if threshold < (num : ℚ) / (total : ℚ) then .ok cand
      else .error .winnerNotFound

/-- Insert into a list in front of the first element `a` may precede,
according to the boolean order `le`. -/
def insertLe {α : Type} (le : α → α → Bool) (a : α) : List α → List α
  | [] => [a]
  | b :: bs => if le a b then a :: b :: bs else b :: insertLe le a bs

/-- Insertion sort by the boolean order `le`; models both Python `sorted`
(on strings) and the DataFrame multi-key sort. -/
def insSort {α : Type} (le : α → α → Bool) : List α → List α
  | [] => []
  | a :: as => insertLe le a (insSort le as)

/-- Boolean lexicographic comparison of character lists by Unicode code
point, the order Python uses on `str`. -/
def charListLeB : List Char → List Char → Bool
  | [], _ => true
  | _ :: _, [] => false
  | a :: as, b :: bs =>
    if a.toNat < b.toNat then true
    else if b.toNat < a.toNat then false
    else charListLeB as bs

/-- Boolean lexicographic order on strings, Python's `<=` on `str`. -/
def strLeB (a b : String) : Bool := charListLeB a.data b.data

/-- Python `sorted` on a list of strings. -/
def sortStr (l : List String) : List String := insSort strLeB l

/-- `SingleMarkVote.plurality_winners` (votingsys variant): the candidates
whose count equals the maximum, sorted ascending; Python `max()` raises on
an empty counter. -/
def SingleMarkVote.plurality_winners (v : SingleMarkVote) : Except VoteErr (List String) :=
  match maxVal (v.counter.map Prod.snd) with
  | none => .error .emptySequence
  | some m => .ok (sortStr ((v.counter.filter (fun kv => kv.2 == m)).map Prod.fst))

/-- `SingleMarkVote.plurality_winner` (votingsys variant): the sole
plurality winner, or `MultipleWinnersFoundError` carrying the tied set. -/
def SingleMarkVote.plurality_winner (v : SingleMarkVote) : Except VoteErr String :=
  match v.plurality_winners with
  | .error e => .error e
  | .ok ws =>
    if 1 < ws.length then .error (.multipleWinnersFound ws)
    else match ws with
    | [] => .error .indexError
    | w :: _ => .ok w

/-- `SingleMarkVote.plurality_winners` (prefvoting variant,
`prefvoting/vote/single_mark.py`): first raise `WinnerNotFoundError` when
the voter total is zero (which covers the empty tally), then proceed as
the votingsys variant. -/
def pfPluralityWinners (c : Tally) : Except VoteErr (List String) :=
  if countTotal c = 0 then .error .winnerNotFound
  else
    match maxVal (c.map Prod.snd) with
    | none => .error .emptySequence
    | some m => .ok (sortStr ((c.filter (fun kv => kv.2 == m)).map Prod.fst))

/-- `SingleMarkVote.plurality_winner` (prefvoting variant). -/
def pfPluralityWinner (c : Tally) : Except VoteErr String :=
  match pfPluralityWinners c with
  | .error e => .error e
  | .ok ws =>
    if 1 < ws.length then .error (.multipleWinnersFound ws)
    else match ws with
    | [] => .error .indexError
    | w :: _ => .ok w

/-- A polars DataFrame of integers: a header of column names and a list of
rows.  In a well-formed frame the column names are distinct and every row
has one cell per column. -/
structure DF where
  cols : List String
  rows : List (List Int)
deriving Repr, DecidableEq

/-- The cell of a row under column `c`: the value paired with the first
occurrence of `c` in the header (`0` when the column is absent, a case the
claims exclude by hypothesis). -/
def cell (cols : List String) (r : List Int) (c : String) : Int :=
  (((cols.zip r).find? (fun p => p.1 == c)).map Prod.snd).getD 0

/-- The projection of a row to the columns other than `w`, in header
order: the grouping key used by `group_by` on all non-weight columns. -/
def keyOf (cols : List String) (w : String) (r : List Int) : List Int :=
  ((cols.zip r).filter (fun p => p.1 != w)).map Prod.snd

/-- One column of a DataFrame as a list of values. -/
def getCol (df : DF) (c : String) : List Int :=
  df.rows.map (fun r => cell df.cols r c)

/-- `check_column_exist` (`votingsys/utils/dataframe.py`). -/
def check_column_exist (df : DF) (c : String) : Except VoteErr Unit :=
  if c ∈ df.cols then .ok () else .error (.missingColumn c)

/-- `check_column_missing` (`votingsys/utils/dataframe.py`). -/
def check_column_missing (df : DF) (c : String) : Except VoteErr Unit :=
  if c ∈ df.cols then .error (.existingColumn c) else .ok ()

/-- Modelled from the spec: `weighted_value_count` is imported by
`votingsys/vote/rank.py` but its definition is not under `src/`.  Per
§4.4, for each non-weight column it sums the weight column over the rows
whose cell equals `value`, failing when the weight column is absent. -/
def weighted_value_count (df : DF) (value : Int) (w : String) :
    Except VoteErr (List (String × Int)) :=
  if w ∈ df.cols then
    .ok ((df.cols.filter (fun c => c != w)).map (fun c =>
      (c, ((df.rows.filter (fun r => cell df.cols r c == value)).map
            (fun r => cell df.cols r w)).sum)))
  else .error (.missingColumn w)

/-- Modelled from the spec: `find_max_in_mapping` is imported by
`votingsys/vote/rank.py` but its definition is not under `src/`.  Per
§4.4 it returns `(tiedKeysSortedAscending, maxValue)`; the behavior on an
empty mapping is unspecified and embedded as `none`. -/
def find_max_in_mapping (m : List (String × Int)) : Option (List String × Int) :=
  match maxVal (m.map Prod.snd) with
  | none => none
  | some mx => some (sortStr ((m.filter (fun kv => kv.2 == mx)).map Prod.fst), mx)

/-- The `RankedVote` data: the ranking DataFrame together with the name of
its count column (`RankedVote.__init__` additionally checks that the count
column exists). -/
structure RankedVote where
  ranking : DF
  count_col : String
deriving Repr, DecidableEq

/-- `RankedVote.get_num_candidates`: `self._ranking.shape[1] - 1`. -/
def RankedVote.get_num_candidates (v : RankedVote) : Int :=
  (v.ranking.cols.length : Int) - 1

/-- `RankedVote.get_num_voters`: the sum of the count column. -/
def RankedVote.get_num_voters (v : RankedVote) : Int :=
  (getCol v.ranking v.count_col).sum

/-- `RankedVote.absolute_majority_winner`: weighted count of rank-`0`
cells per candidate, maximum via `find_max_in_mapping`, then the
`> 0.5` threshold test on the tied maximum (`ZeroDivisionError` when the
voter total is zero); on success the first tied candidate is returned. -/
def RankedVote.absolute_majority_winner (v : RankedVote) : Except VoteErr String :=
  match weighted_value_count v.ranking 0 v.count_col with
  | .error e => .error e
  | .ok counts =>
    match find_max_in_mapping counts with
    | none => .error .emptyMapping
    | some (cands, mx) =>
      let total := v.get_num_voters
      if total = 0 then .error .zeroDivision
      else if (1 : ℚ) / 2 < (mx : ℚ) / (total : ℚ) then
        match cands with
        | [] => .error .indexError
        | cand :: _ => .ok cand
      else .error .winnerNotFound

/-- `RankedVote.plurality_winners`: the tied leaders on weighted
first-preference totals, sorted ascending. -/
def RankedVote.plurality_winners (v : RankedVote) : Except VoteErr (List String) :=
  match weighted_value_count v.ranking 0 v.count_col with
  | .error e => .error e
  | .ok counts =>
    match find_max_in_mapping counts with
    | none => .error .emptyMapping
    | some (cands, _) => .ok (sortStr cands)

/-- `RankedVote.plurality_winner`: the sole plurality winner, or
`MultipleWinnersFoundError` carrying the tied set. -/
def RankedVote.plurality_winner (v : RankedVote) : Except VoteErr String :=
  match v.plurality_winners with
  | .error e => .error e
  | .ok ws =>
    if 1 < ws.length then .error (.multipleWinnersFound ws)
    else match ws with
    | [] => .error .indexError
    | w :: _ => .ok w

/-- The total weight carried by key `k` in a list of `(key, weight)`
pairs. -/
def sumKey (l : List (List Int × Int)) (k : List Int) : Int :=
  ((l.filter (fun p => p.1 == k)).map Prod.snd).sum

/-- Fold one `(key, weight)` pair into an accumulated group list: add the
weight to the existing entry for the key, or open a new group at the
end. -/
def addPair (acc : List (List Int × Int)) (kv : List Int × Int) : List (List Int × Int) :=
  if acc.any (fun p => p.1 == kv.1)
  then acc.map (fun p => if p.1 == kv.1 then (p.1, p.2 + kv.2) else p)
  else acc ++ [kv]

/-- Group `(key, weight)` pairs: one entry per distinct key, in order of
first occurrence, holding the summed weight of that key. -/
def groupPairs (l : List (List Int × Int)) : List (List Int × Int) :=
  l.foldl addPair []

/-- The `(key, weight)` view of a frame's rows: grouping key and weight
cell of every row, in row order. -/
def rowPairs (df : DF) (w : String) : List (List Int × Int) :=
  df.rows.map (fun r => (keyOf df.cols w r, cell df.cols r w))

/-- Modelled from the spec: `sum_weights_by_group` is imported by
`votingsys/vote/rank.py` but its definition is not under `src/`.  Per
§4.4 it groups by every column except `weightCol`, summing `weightCol`
per group (the compaction primitive); the output frame keeps the key
columns in header order followed by the weight column. -/
def sum_weights_by_group (df : DF) (w : String) : DF :=
  ⟨df.cols.filter (fun c => c != w) ++ [w],
   (groupPairs (rowPairs df w)).map (fun p => p.1 ++ [p.2])⟩

/-- Modelled from the spec: `remove_zero_weight_rows` is imported by
`votingsys/vote/rank.py` but its definition is not under `src/`.  Per
§4.4 it filters out the rows whose weight column equals exactly zero. -/
def remove_zero_weight_rows (df : DF) (w : String) : DF :=
  ⟨df.cols, df.rows.filter (fun r => cell df.cols r w != 0)⟩

/-- The composite sort key of `from_dataframe_with_count`: the count
column first, then the remaining (candidate) columns of the input header
in sorted name order. -/
def sortKeyCols (cols : List String) (w : String) : List String :=
  w :: sortStr (cols.filter (fun c => c != w))

/-- Lexicographic comparison of equal-length integer lists. -/
def lexCmp : List Int → List Int → Ordering
  | [], [] => .eq
  | [], _ :: _ => .lt
  | _ :: _, [] => .gt
  | a :: as, b :: bs =>
    if a < b then .lt else if b < a then .gt else lexCmp as bs

/-- `r1` may precede `r2` in a descending sort by the named key columns:
the key of `r1` is at least the key of `r2`. -/
def rowGeB (cols keys : List String) (r1 r2 : List Int) : Bool :=
  decide (lexCmp (keys.map (cell cols r1)) (keys.map (cell cols r2)) ≠ .lt)

/-- `DataFrame.sort(by=keys, descending=True)`: sort the rows descending
by the projection to the named key columns.  The composite keys used by
the vote factories determine rows uniquely after compaction, so the
choice of sorting algorithm is immaterial; insertion sort is used. -/
def DF.sortRowsDesc (df : DF) (keys : List String) : DF :=
  ⟨df.cols, insSort (rowGeB df.cols keys) df.rows⟩

/-- `RankedVote.from_dataframe_with_count`: group rankings and sum their
counts, drop zero-count groups, then sort descending by the composite
key (count column first, candidate columns in sorted name order). -/
def RankedVote.from_dataframe_with_count (df : DF) (w : String) : RankedVote :=
  ⟨(remove_zero_weight_rows (sum_weights_by_group df w) w).sortRowsDesc
      (sortKeyCols df.cols w),
   w⟩

/-- Modelled from the spec: `compute_count_aggregated_dataframe`
(`votingsys/data/aggregation.py`) is imported by `votingsys/vote/rank.py`
but its definition is not under `src/`.  Per §4.3 it rejects a raw table
already containing the count column, assigns a uniform weight of `1` to
every row and compacts by grouping on all candidate columns, summing the
weights. -/
def compute_count_aggregated_dataframe (df : DF) (w : String) : Except VoteErr DF :=
  match check_column_missing df w with
  | .error e => .error e
  | .ok _ => .ok (sum_weights_by_group ⟨df.cols ++ [w], df.rows.map (fun r => r ++ [1])⟩ w)

/-- `RankedVote.from_dataframe`: aggregate a one-row-per-voter table into
counts, then build the vote via `from_dataframe_with_count`. -/
def RankedVote.from_dataframe (df : DF) (w : String) : Except VoteErr RankedVote :=
  match compute_count_aggregated_dataframe df w with
  | .error e => .error e
  | .ok d => .ok (RankedVote.from_dataframe_with_count d w)

/-- The count-weighted number of ballots ranking candidate `c` first:
the sum of the weight column over the rows whose `c` cell is `0`. -/
def rank0Weight (df : DF) (w : String) (c : String) : Int :=
  ((df.rows.filter (fun r => cell df.cols r c == 0)).map (fun r => cell df.cols r w)).sum

/-- The candidate columns of a ranking frame: every column except the
count column. -/
def candCols (df : DF) (w : String) : List String :=
  df.cols.filter (fun c => c != w)

/-- The maximum weighted first-preference total over the candidate
columns (`0` when there are none). -/
def maxRank0 (df : DF) (w : String) : Int :=
  maxValD ((candCols df w).map (rank0Weight df w))

/-- The set of candidates achieving the maximum weighted first-preference
total, sorted ascending. -/
def tiedLeaders (df : DF) (w : String) : List String :=
  sortStr ((candCols df w).filter (fun c => rank0Weight df w c == maxRank0 df w))

theorem insertLe_perm {α : Type} (le : α → α → Bool) (a : α) (l : List α) :
    (insertLe le a l).Perm (a :: l) := by
  induction l with
  | nil => simp [insertLe]
  | cons b bs ih =>
    simp only [insertLe]
    by_cases h : le a b
    · simp [h]
    · simp only [h, if_neg, Bool.false_eq_true, not_false_eq_true]
      exact (ih.cons b).trans (List.Perm.swap a b bs)

theorem insSort_perm {α : Type} (le : α → α → Bool) (l : List α) :
    (insSort le l).Perm l := by
  induction l with
  | nil => simp [insSort]
  | cons a as ih => exact (insertLe_perm le a (insSort le as)).trans (ih.cons a)

theorem insertLe_pairwise {α : Type} (le : α → α → Bool)
    (htot : ∀ a b, le a b = true ∨ le b a = true)
    (htr : ∀ a b c, le a b = true → le b c = true → le a c = true) (a : α) (l : List α)
    (hl : l.Pairwise (fun x y => le x y = true)) :
    (insertLe le a l).Pairwise (fun x y => le x y = true) := by
  induction l with
  | nil => simp [insertLe]
  | cons b bs ih =>
    rcases List.pairwise_cons.mp hl with ⟨hb, hbs⟩
    simp only [insertLe]
    by_cases h : le a b = true
    · rw [if_pos h]
      refine List.Pairwise.cons ?_ hl
      intro x hx
      rcases List.mem_cons.mp hx with rfl | hx
      · exact h
      · exact htr a b x h (hb x hx)
    · rw [if_neg h]
      refine List.Pairwise.cons ?_ (ih hbs)
      intro y hy
      have hy' : y = a ∨ y ∈ bs := by
        have := (insertLe_perm le a bs).mem_iff.mp hy
        simpa using this
      rcases hy' with heq | hy'
      · rw [heq]
        rcases htot a b with h' | h'
        · exact absurd h' h
        · exact h'
      · exact hb y hy'

theorem insSort_pairwise {α : Type} (le : α → α → Bool)
    (htot : ∀ a b, le a b = true ∨ le b a = true)
    (htr : ∀ a b c, le a b = true → le b c = true → le a c = true) (l : List α) :
    (insSort le l).Pairwise (fun x y => le x y = true) := by
  induction l with
  | nil => simp [insSort]
  | cons a as ih => exact insertLe_pairwise le htot htr a (insSort le as) ih

theorem insSort_eq_self {α : Type} (le : α → α → Bool) (l : List α)
    (hl : l.Pairwise (fun x y => le x y = true)) : insSort le l = l := by
  induction l with
  | nil => rfl
  | cons a as ih =>
    rcases List.pairwise_cons.mp hl with ⟨ha, has⟩
    simp only [insSort, ih has]
    cases as with
    | nil => rfl
    | cons b bs => simp [insertLe, ha b (by simp)]

example : SingleMarkVote.plurality_winner ⟨[("a", 10), ("b", 2), ("c", 5), ("d", 3)]⟩ =
    .ok "a" := by decide

example : SingleMarkVote.absolute_majority_winner ⟨[("a", 10), ("b", 20), ("c", 5), ("d", 3)]⟩ =
    .ok "b" := by
  norm_num [SingleMarkVote.absolute_majority_winner, most_common1, countTotal]

example : SingleMarkVote.absolute_majority_winner ⟨[("a", 10), ("b", 10)]⟩ =
    .error .winnerNotFound := by
  norm_num [SingleMarkVote.absolute_majority_winner, most_common1, countTotal]

example : SingleMarkVote.super_majority_winner ⟨[("a", 10), ("b", 30), ("c", 5), ("d", 3)]⟩
    (6 / 10) = .ok "b" := by
  norm_num [SingleMarkVote.super_majority_winner, most_common1, countTotal]

example : SingleMarkVote.super_majority_winner ⟨[("a", 10), ("b", 2)]⟩ (4 / 10) =
    .error .invalidArgument := by
  norm_num [SingleMarkVote.super_majority_winner]

example : SingleMarkVote.plurality_winners ⟨[("a", 10), ("b", 2), ("c", 5), ("d", 3), ("e", 10)]⟩ =
    .ok ["a", "e"] := by decide

example : SingleMarkVote.init [("a", 0), ("b", -2), ("c", 5), ("d", 3)] =
    .error (.negativeCount "b" (-2)) := by decide

example : pfPluralityWinners [] = .error .winnerNotFound := by decide

example : RankedVote.from_dataframe_with_count
    ⟨["a", "b", "c", "count"],
     [[0, 1, 2, 3], [1, 2, 0, 5], [2, 0, 1, 2], [0, 1, 2, 1], [2, 1, 0, 0]]⟩ "count" =
    ⟨⟨["a", "b", "c", "count"], [[1, 2, 0, 5], [0, 1, 2, 4], [2, 0, 1, 2]]⟩, "count"⟩ := by
  decide

example : RankedVote.plurality_winners
    ⟨⟨["a", "b", "c", "count"], [[0, 1, 2, 3], [1, 2, 0, 6], [2, 0, 1, 2]]⟩, "count"⟩ =
    .ok ["c"] := by decide

example : RankedVote.plurality_winners
    ⟨⟨["a", "b", "c", "count"], [[0, 1, 2, 3], [1, 2, 0, 6], [2, 0, 1, 2], [1, 0, 2, 4]]⟩,
     "count"⟩ = .ok ["b", "c"] := by decide

example : RankedVote.absolute_majority_winner
    ⟨⟨["a", "b", "c", "count"], [[0, 1, 2, 3], [1, 2, 0, 6], [2, 0, 1, 2]]⟩, "count"⟩ =
    .ok "c" := by
  simp +decide [RankedVote.absolute_majority_winner, weighted_value_count,
    find_max_in_mapping, RankedVote.get_num_voters, getCol, cell, maxVal, sortStr, insSort,
    insertLe, strLeB, charListLeB, List.filter, List.find?, List.zip, List.zipWith,
    Option.elim]
  norm_num

example : RankedVote.absolute_majority_winner
    ⟨⟨["a", "b", "c", "count"], [[0, 1, 2, 3], [1, 2, 0, 5], [2, 0, 1, 2]]⟩, "count"⟩ =
    .error .winnerNotFound := by
  simp +decide [RankedVote.absolute_majority_winner, weighted_value_count,
    find_max_in_mapping, RankedVote.get_num_voters, getCol, cell, maxVal, sortStr, insSort,
    insertLe, strLeB, charListLeB, List.filter, List.find?, List.zip, List.zipWith,
    Option.elim]
  norm_num

example : RankedVote.from_dataframe
    ⟨["a", "b", "c"],
     [[0, 1, 2], [0, 1, 2], [0, 1, 2], [1, 2, 0], [1, 2, 0], [1, 2, 0], [1, 2, 0], [1, 2, 0],
      [2, 0, 1], [2, 0, 1]]⟩ "count" =
    .ok ⟨⟨["a", "b", "c", "count"], [[1, 2, 0, 5], [0, 1, 2, 3], [2, 0, 1, 2]]⟩, "count"⟩ := by
  decide

theorem charListLeB_total : ∀ x y, charListLeB x y = true ∨ charListLeB y x = true
  | [], _ => Or.inl rfl
  | _ :: _, [] => by right; rfl
  | a :: as, b :: bs => by
    simp only [charListLeB]
    by_cases h1 : a.toNat < b.toNat
    · left; rw [if_pos h1]
    · by_cases h2 : b.toNat < a.toNat
      · right; rw [if_pos h2]
      · rw [if_neg h1, if_neg h2, if_neg h2, if_neg h1]
        exact charListLeB_total as bs

theorem charListLeB_trans : ∀ x y z, charListLeB x y = true → charListLeB y z = true →
    charListLeB x z = true
  | [], _, _, _, _ => rfl
  | _ :: _, [], _, hxy, _ => by simp [charListLeB] at hxy
  | _ :: _, _ :: _, [], _, hyz => by simp [charListLeB] at hyz
  | a :: as, b :: bs, c :: cs, hxy, hyz => by
    simp only [charListLeB] at hxy hyz ⊢
    by_cases h1 : a.toNat < b.toNat
    · by_cases h2 : b.toNat < c.toNat
      · rw [if_pos (by omega)]
      · rw [if_neg h2] at hyz
        by_cases h2' : c.toNat < b.toNat
        · rw [if_pos h2'] at hyz; simp at hyz
        · rw [if_pos (by omega)]
    · rw [if_neg h1] at hxy
      by_cases h1' : b.toNat < a.toNat
      · rw [if_pos h1'] at hxy; simp at hxy
      · rw [if_neg h1'] at hxy
        by_cases h2 : b.toNat < c.toNat
        · rw [if_pos (by omega)]
        · rw [if_neg h2] at hyz
          by_cases h2' : c.toNat < b.toNat
          · rw [if_pos h2'] at hyz; simp at hyz
          · rw [if_neg h2'] at hyz
            rw [if_neg (by omega), if_neg (by omega)]
            exact charListLeB_trans as bs cs hxy hyz

theorem strLeB_total (a b : String) : strLeB a b = true ∨ strLeB b a = true :=
  charListLeB_total a.data b.data

theorem strLeB_trans (a b c : String) : strLeB a b = true → strLeB b c = true →
    strLeB a c = true :=
  charListLeB_trans a.data b.data c.data

theorem sortStr_perm (l : List String) : (sortStr l).Perm l := insSort_perm strLeB l

theorem sortStr_pairwise (l : List String) :
    (sortStr l).Pairwise (fun x y => strLeB x y = true) :=
  insSort_pairwise strLeB strLeB_total strLeB_trans l

theorem sortStr_eq_self (l : List String) (h : l.Pairwise (fun x y => strLeB x y = true)) :
    sortStr l = l :=
  insSort_eq_self strLeB l h

theorem lexCmp_ge_trans : ∀ x y z : List Int, lexCmp x y ≠ .lt → lexCmp y z ≠ .lt →
    lexCmp x z ≠ .lt
  | [], [], _, _, hyz => hyz
  | [], _ :: _, _, hxy, _ => by simp [lexCmp] at hxy
  | _ :: _, [], [], _, _ => by simp [lexCmp]
  | _ :: _, [], _ :: _, _, hyz => by simp [lexCmp] at hyz
  | _ :: _, _ :: _, [], _, _ => by simp [lexCmp]
  | a :: as, b :: bs, c :: cs, hxy, hyz => by
    simp only [lexCmp] at hxy hyz ⊢
    by_cases h1 : a < b
    · rw [if_pos h1] at hxy; exact absurd rfl hxy
    · rw [if_neg h1] at hxy
      by_cases h2 : b < c
      · rw [if_pos h2] at hyz; exact absurd rfl hyz
      · rw [if_neg h2] at hyz
        by_cases h1' : b < a
        · rw [if_neg (by omega), if_pos (by omega)]
          simp
        · rw [if_neg h1'] at hxy
          by_cases h2' : c < b
          · rw [if_pos h2'] at hyz; simp at hyz
            rw [if_neg (by omega), if_pos (by omega)]
            simp
          · rw [if_neg h2'] at hyz
            rw [if_neg (by omega), if_neg (by omega)]
            exact lexCmp_ge_trans as bs cs hxy hyz

theorem lexCmp_ge_total : ∀ x y : List Int, lexCmp x y ≠ .lt ∨ lexCmp y x ≠ .lt
  | [], [] => by left; simp [lexCmp]
  | [], _ :: _ => by right; simp [lexCmp]
  | _ :: _, [] => by left; simp [lexCmp]
  | a :: as, b :: bs => by
    simp only [lexCmp]
    by_cases h1 : a < b
    · right; rw [if_neg (by omega), if_pos (by omega)]; simp
    · by_cases h2 : b < a
      · left; rw [if_neg h1, if_pos h2]; simp
      · rw [if_neg h1, if_neg h2, if_neg h2, if_neg h1]
        exact lexCmp_ge_total as bs

theorem rowGeB_total (cols keys : List String) (r1 r2 : List Int) :
    rowGeB cols keys r1 r2 = true ∨ rowGeB cols keys r2 r1 = true := by
  simp only [rowGeB, ne_eq, decide_eq_true_eq]
  exact lexCmp_ge_total _ _

theorem rowGeB_trans (cols keys : List String) (r1 r2 r3 : List Int) :
    rowGeB cols keys r1 r2 = true → rowGeB cols keys r2 r3 = true →
    rowGeB cols keys r1 r3 = true := by
  simp only [rowGeB, ne_eq, decide_eq_true_eq]
  exact lexCmp_ge_trans _ _ _

theorem most_common1_eq_none_iff (c : Tally) : most_common1 c = none ↔ c = [] := by
  cases c <;> simp [most_common1]

theorem most_common1_spec (c : Tally) (h : c ≠ []) :
    ∃ k v, most_common1 c = some (k, v) ∧ (k, v) ∈ c ∧ ∀ kv ∈ c, kv.2 ≤ v := by
  induction c with
  | nil => exact absurd rfl h
  | cons kv rest ih =>
    cases hr : most_common1 rest with
    | none =>
      have hre : rest = [] := (most_common1_eq_none_iff rest).mp hr
      subst hre
      exact ⟨kv.1, kv.2, by simp [most_common1], by simp, by simp⟩
    | some best =>
      have hrne : rest ≠ [] := by
        intro h0
        subst h0
        simp [most_common1] at hr
      obtain ⟨k, v, heq, hmem, hbound⟩ := ih hrne
      rw [heq] at hr
      obtain rfl : best = (k, v) := (Option.some.inj hr).symm
      by_cases hgt : v > kv.2
      · refine ⟨k, v, ?_, .tail _ hmem, ?_⟩
        · simp [most_common1, heq, hgt]
        · intro x hx
          rcases List.mem_cons.mp hx with rfl | hx
          · exact le_of_lt hgt
          · exact hbound x hx
      · refine ⟨kv.1, kv.2, ?_, by simp, ?_⟩
        · simp [most_common1, heq, hgt]
        · intro x hx
          rcases List.mem_cons.mp hx with rfl | hx
          · exact le_refl _
          · exact le_trans (hbound x hx) (not_lt.mp hgt)

theorem maxVal_eq_none_iff (l : List Int) : maxVal l = none ↔ l = [] := by
  cases l <;> simp [maxVal]

theorem maxVal_spec (l : List Int) (h : l ≠ []) :
    ∃ m, maxVal l = some m ∧ m ∈ l ∧ ∀ x ∈ l, x ≤ m := by
  induction l with
  | nil => exact absurd rfl h
  | cons v vs ih =>
    cases hv : maxVal vs with
    | none =>
      have hve : vs = [] := (maxVal_eq_none_iff vs).mp hv
      subst hve
      exact ⟨v, by simp [maxVal], by simp, by simp⟩
    | some m =>
      have hvne : vs ≠ [] := by
        intro h0
        subst h0
        simp [maxVal] at hv
      obtain ⟨m', hm', hmem, hb⟩ := ih hvne
      rw [hv] at hm'
      obtain rfl : m = m' := Option.some.inj hm'
      refine ⟨max v m, ?_, ?_, ?_⟩
      · simp [maxVal, hv]
      · rcases max_choice v m with hc | hc <;> rw [hc]
        · simp
        · exact List.mem_cons_of_mem _ hmem
      · intro x hx
        rcases List.mem_cons.mp hx with rfl | hx
        · exact le_max_left _ _
        · exact le_trans (hb x hx) (le_max_right _ _)

theorem maxValD_spec (l : List Int) (h : l ≠ []) :
    maxValD l ∈ l ∧ ∀ x ∈ l, x ≤ maxValD l := by
  obtain ⟨m, hm, hmem, hb⟩ := maxVal_spec l h
  rw [maxValD, hm]
  exact ⟨hmem, hb⟩

theorem most_common1_maxCount (c : Tally) (h : c ≠ []) :
    ∃ k, most_common1 c = some (k, maxCount c) ∧ (k, maxCount c) ∈ c := by
  obtain ⟨k, v, heq, hmem, hb⟩ := most_common1_spec c h
  have hvals : c.map Prod.snd ≠ [] := by
    simpa using h
  obtain ⟨hmm, hmb⟩ := maxValD_spec _ hvals
  have h1 : v ≤ maxValD (c.map Prod.snd) :=
    hmb v (List.mem_map_of_mem _ hmem)
  have h2 : maxValD (c.map Prod.snd) ≤ v := by
    obtain ⟨kv, hkv, hkv2⟩ := List.mem_map.mp hmm
    rw [← hkv2]
    exact hb kv hkv
  have hveq : v = maxCount c := le_antisymm h1 h2
  subst hveq
  exact ⟨k, heq, hmem⟩

theorem countTotal_cons (kv : String × Int) (c : Tally) :
    countTotal (kv :: c) = kv.2 + countTotal c := by
  simp [countTotal]

theorem countTotal_nonneg (c : Tally) (hnn : ∀ kv ∈ c, 0 ≤ kv.2) : 0 ≤ countTotal c := by
  induction c with
  | nil => simp [countTotal]
  | cons kv rest ih =>
    rw [countTotal_cons]
    have h1 : 0 ≤ kv.2 := hnn kv (by simp)
    have h2 : 0 ≤ countTotal rest := ih (fun x hx => hnn x (List.mem_cons_of_mem _ hx))
    omega

theorem entry_le_countTotal (c : Tally) (hnn : ∀ kv ∈ c, 0 ≤ kv.2) :
    ∀ kv ∈ c, kv.2 ≤ countTotal c := by
  induction c with
  | nil => simp
  | cons a rest ih =>
    intro kv hkv
    have ha : 0 ≤ a.2 := hnn a (by simp)
    have hrnn : ∀ x ∈ rest, 0 ≤ x.2 := fun x hx => hnn x (List.mem_cons_of_mem _ hx)
    rw [countTotal_cons]
    rcases List.mem_cons.mp hkv with rfl | h
    · have := countTotal_nonneg rest hrnn
      omega
    · have := ih hrnn kv h
      omega

theorem two_entries_le_countTotal (c : Tally) (hnn : ∀ kv ∈ c, 0 ≤ kv.2) :
    ∀ a x b y, (a, x) ∈ c → (b, y) ∈ c → a ≠ b → x + y ≤ countTotal c := by
  induction c with
  | nil => simp
  | cons kv rest ih =>
    intro a x b y ha hb hab
    have hknn : 0 ≤ kv.2 := hnn kv (by simp)
    have hrnn : ∀ p ∈ rest, 0 ≤ p.2 := fun p hp => hnn p (List.mem_cons_of_mem _ hp)
    rw [countTotal_cons]
    rcases List.mem_cons.mp ha with heqa | ha <;> rcases List.mem_cons.mp hb with heqb | hb
    · exact absurd (congrArg Prod.fst (heqa.trans heqb.symm)) hab
    · have h1 : kv.2 = x := by rw [← heqa]
      have h2 := entry_le_countTotal rest hrnn (b, y) hb
      simp only at h2
      omega
    · have h1 : kv.2 = y := by rw [← heqb]
      have h2 := entry_le_countTotal rest hrnn (a, x) ha
      simp only at h2
      omega
    · have := ih hrnn a x b y ha hb hab
      omega

theorem half_lt_div_iff (num total : Int) (h : 0 < total) :
    ((1 : ℚ) / 2 < (num : ℚ) / (total : ℚ)) ↔ total < 2 * num := by
  rw [div_lt_div_iff (by norm_num) (by exact_mod_cast h)]
  constructor
  · intro hh
    have : (total : ℚ) < 2 * (num : ℚ) := by linarith
    exact_mod_cast this
  · intro hh
    have : (total : ℚ) < 2 * (num : ℚ) := by exact_mod_cast hh
    linarith

theorem amw_eq (c : Tally) (k : String) (hk : most_common1 c = some (k, maxCount c))
    (hpos : 0 < countTotal c) :
    SingleMarkVote.absolute_majority_winner ⟨c⟩ =
      (if countTotal c < 2 * maxCount c then .ok k else .error .winnerNotFound) := by
  unfold SingleMarkVote.absolute_majority_winner
  simp only [hk]
  rw [if_neg (by omega)]
  by_cases h : countTotal c < 2 * maxCount c
  · rw [if_pos ((half_lt_div_iff _ _ hpos).mpr h), if_pos h]
  · rw [if_neg (fun hc => h ((half_lt_div_iff _ _ hpos).mp hc)), if_neg h]

theorem amw_zero_total (c : Tally) (hne : c ≠ []) (h0 : countTotal c = 0) :
    SingleMarkVote.absolute_majority_winner ⟨c⟩ = .error .zeroDivision := by
  obtain ⟨k, hk, _⟩ := most_common1_maxCount c hne
  unfold SingleMarkVote.absolute_majority_winner
  simp only [hk]
  rw [if_pos h0]

theorem amw_ok_iff (c : Tally) (hnn : ∀ kv ∈ c, 0 ≤ kv.2) (hne : c ≠ [])
    (hpos : 0 < countTotal c) (cand : String) :
    SingleMarkVote.absolute_majority_winner ⟨c⟩ = .ok cand ↔
      ((cand, maxCount c) ∈ c ∧ countTotal c < 2 * maxCount c) := by
  obtain ⟨k, hk, hmem⟩ := most_common1_maxCount c hne
  rw [amw_eq c k hk hpos]
  by_cases h : countTotal c < 2 * maxCount c
  · rw [if_pos h]
    constructor
    · intro hok
      obtain rfl : k = cand := Except.ok.inj hok
      exact ⟨hmem, h⟩
    · rintro ⟨hcm, -⟩
      by_cases hck : cand = k
      · rw [hck]
      · exfalso
        have := two_entries_le_countTotal c hnn cand (maxCount c) k (maxCount c) hcm hmem hck
        omega
  · rw [if_neg h]
    constructor
    · intro hok
      exact Except.noConfusion hok
    · rintro ⟨-, hth⟩
      exact absurd hth h

theorem smw_invalid (c : Tally) (t : ℚ) (h : t ≤ 1 / 2) :
    SingleMarkVote.super_majority_winner ⟨c⟩ t = .error .invalidArgument := by
  unfold SingleMarkVote.super_majority_winner
  rw [if_pos h]

theorem smw_eq (c : Tally) (t : ℚ) (k : String)
    (hk : most_common1 c = some (k, maxCount c)) (ht : ¬ t ≤ 1 / 2)
    (hpos : 0 < countTotal c) :
    SingleMarkVote.super_majority_winner ⟨c⟩ t =
      (if t < (maxCount c : ℚ) / (countTotal c : ℚ) then .ok k
       else .error .winnerNotFound) := by
  unfold SingleMarkVote.super_majority_winner
  rw [if_neg ht]
  simp only [hk]
  rw [if_neg (by omega)]

theorem cnnc_error_of_neg (c : Tally) (h : ∃ kv ∈ c, kv.2 < 0) :
    ∃ k v, (k, v) ∈ c ∧ v < 0 ∧
      check_non_negative_count c = .error (.negativeCount k v) := by
  induction c with
  | nil => simp at h
  | cons kv rest ih =>
    obtain ⟨k0, v0⟩ := kv
    by_cases hneg : v0 < 0
    · exact ⟨k0, v0, by simp, hneg, by simp [check_non_negative_count, hneg]⟩
    · obtain ⟨p, hp, hpneg⟩ := h
      rcases List.mem_cons.mp hp with rfl | hp
      · exact absurd hpneg hneg
      · obtain ⟨k, v, hmem, hvneg, herr⟩ := ih ⟨p, hp, hpneg⟩
        exact ⟨k, v, List.mem_cons_of_mem _ hmem, hvneg,
          by simp [check_non_negative_count, hneg, herr]⟩

theorem cnnc_ok_iff (c : Tally) :
    check_non_negative_count c = .ok () ↔ ∀ kv ∈ c, 0 ≤ kv.2 := by
  induction c with
  | nil => simp [check_non_negative_count]
  | cons kv rest ih =>
    obtain ⟨k0, v0⟩ := kv
    simp only [check_non_negative_count]
    by_cases h : v0 < 0
    · rw [if_pos h]
      constructor
      · intro hh
        exact Except.noConfusion hh
      · intro hall
        exact absurd (hall (k0, v0) (by simp)) (by simp only [not_le]; exact h)
    · rw [if_neg h]
      rw [ih]
      constructor
      · intro hall kv hkv
        rcases List.mem_cons.mp hkv with rfl | hkv
        · simpa using not_lt.mp h
        · exact hall kv hkv
      · intro hall kv hkv
        exact hall kv (List.mem_cons_of_mem _ hkv)

theorem init_eq_match (c : Tally) :
    SingleMarkVote.init c =
      (match check_non_negative_count c with
       | .error e => .error e
       | .ok _ =>
         match check_non_empty_count c with
         | .error e => .error e
         | .ok _ => .ok ⟨c⟩) := by
  unfold SingleMarkVote.init
  cases check_non_negative_count c <;> cases hc : check_non_empty_count c <;> rfl

theorem length_filter_ne_of_mem_nodup (cols : List String) (w : String)
    (hmem : w ∈ cols) (hnd : cols.Nodup) :
    (cols.filter (fun c => c != w)).length = cols.length - 1 := by
  induction cols with
  | nil => simp at hmem
  | cons a rest ih =>
    rcases List.nodup_cons.mp hnd with ⟨hna, hndr⟩
    rcases List.mem_cons.mp hmem with rfl | hmem'
    · rw [List.filter_cons]
      rw [if_neg (by simp)]
      have hself : rest.filter (fun c => c != w) = rest := by
        rw [List.filter_eq_self]
        intro x hx
        simp only [bne_iff_ne, ne_eq]
        intro hxa
        exact hna (hxa ▸ hx)
      rw [hself]
      simp
    · rw [List.filter_cons]
      have hne : a ≠ w := by
        rintro rfl
        exact hna hmem'
      rw [if_pos (by simpa using hne)]
      have hpos : 1 ≤ rest.length := by
        rcases rest with _ | _
        · simp at hmem'
        · simp
      simp only [List.length_cons, ih hmem' hndr]
      omega

/-- C1 (counterexample): `SingleMarkVote(Counter({"a": 0}))` is accepted
by construction and has zero voters, but `absolute_majority_winner()`
raises `ZeroDivisionError` (`0 / 0`), not `WinnerNotFoundError`, so the
claim's zero-voter clause fails on the code. -/
theorem C1_counterexample :
    SingleMarkVote.init [("a", 0)] = .ok ⟨[("a", 0)]⟩ ∧
    countTotal [("a", 0)] = 0 ∧
    SingleMarkVote.absolute_majority_winner ⟨[("a", 0)]⟩ = .error .zeroDivision ∧
    SingleMarkVote.absolute_majority_winner ⟨[("a", 0)]⟩ ≠ .error .winnerNotFound :=
  ⟨by decide, by decide, by decide, by decide⟩

/-- C1 (amended): for every validly constructible tally (all counts
non-negative, tally non-empty) with a positive voter total,
`absolute_majority_winner()` returns the single candidate holding the
highest count if and only if twice that count strictly exceeds the voter
total (strict `>`, so the exactly-50% case fails with `WinnerNotFound`);
on a zero-voter tally it raises `ZeroDivisionError` instead of
`WinnerNotFound`. -/
theorem C1_amended_thm (c : Tally) (hnn : ∀ kv ∈ c, 0 ≤ kv.2) (hne : c ≠ []) :
    (0 < countTotal c →
      (∀ cand, SingleMarkVote.absolute_majority_winner ⟨c⟩ = .ok cand ↔
          ((cand, maxCount c) ∈ c ∧ countTotal c < 2 * maxCount c)) ∧
      (2 * maxCount c ≤ countTotal c →
        SingleMarkVote.absolute_majority_winner ⟨c⟩ = .error .winnerNotFound)) ∧
    (countTotal c = 0 →
      SingleMarkVote.absolute_majority_winner ⟨c⟩ = .error .zeroDivision) := by
  refine ⟨fun hpos => ⟨fun cand => amw_ok_iff c hnn hne hpos cand, fun hle => ?_⟩,
    fun h0 => amw_zero_total c hne h0⟩
  obtain ⟨k, hk, _⟩ := most_common1_maxCount c hne
  rw [amw_eq c k hk hpos]
  rw [if_neg (by omega)]

/-- C1 (witness): the amended theorem applied to the docstring example
(majority winner `b` with 20 of 38 votes) and to a tied tally at exactly
50% (which fails with `WinnerNotFound`). -/
theorem C1_witness :
    SingleMarkVote.absolute_majority_winner ⟨[("a", 10), ("b", 20), ("c", 5), ("d", 3)]⟩ =
      .ok "b" ∧
    SingleMarkVote.absolute_majority_winner ⟨[("a", 10), ("b", 10)]⟩ =
      .error .winnerNotFound := by
  constructor
  · exact (((C1_amended_thm _ (by decide) (by decide)).1 (by decide)).1 "b").mpr
      ⟨by decide, by decide⟩
  · exact ((C1_amended_thm _ (by decide) (by decide)).1 (by decide)).2 (by decide)

/-- C10: with non-negative counts and a positive voter total, two
distinct candidates can never both strictly exceed half the total; hence
whenever `absolute_majority_winner()` succeeds, its result is the unique
candidate whose count exceeds half the total, independently of which tied
entry the underlying most-common query would return. -/
theorem C10_thm (c : Tally) (hnn : ∀ kv ∈ c, 0 ≤ kv.2) (hpos : 0 < countTotal c) :
    (∀ a x b y, (a, x) ∈ c → (b, y) ∈ c → a ≠ b →
        ¬(countTotal c < 2 * x ∧ countTotal c < 2 * y)) ∧
    (∀ cand, SingleMarkVote.absolute_majority_winner ⟨c⟩ = .ok cand →
        (cand, maxCount c) ∈ c ∧ countTotal c < 2 * maxCount c ∧
        ∀ k u, (k, u) ∈ c → countTotal c < 2 * u → k = cand) := by
  have hne : c ≠ [] := by
    rintro rfl
    simp [countTotal] at hpos
  constructor
  · rintro a x b y ha hb hab ⟨hx, hy⟩
    have := two_entries_le_countTotal c hnn a x b y ha hb hab
    omega
  · intro cand hok
    obtain ⟨hmem, hth⟩ := (amw_ok_iff c hnn hne hpos cand).mp hok
    refine ⟨hmem, hth, fun k u hku hu => ?_⟩
    by_cases hck : k = cand
    · exact hck
    · exfalso
      have := two_entries_le_countTotal c hnn k u cand (maxCount c) hku hmem hck
      omega

/-- C10 (witness): the uniqueness statement instantiated on the docstring
example, where the successful winner `b` holds 20 of 38 votes, the unique
count above half the total. -/
theorem C10_witness :
    ("b", maxCount [("a", 10), ("b", 20), ("c", 5), ("d", 3)]) ∈
        [("a", 10), ("b", 20), ("c", 5), ("d", 3)] ∧
      countTotal [("a", 10), ("b", 20), ("c", 5), ("d", 3)] <
        2 * maxCount [("a", 10), ("b", 20), ("c", 5), ("d", 3)] := by
  have hok : SingleMarkVote.absolute_majority_winner
      ⟨[("a", 10), ("b", 20), ("c", 5), ("d", 3)]⟩ = .ok "b" :=
    (amw_ok_iff _ (by decide) (by decide) (by decide) "b").mpr ⟨by decide, by decide⟩
  exact ⟨((C10_thm _ (by decide) (by decide)).2 "b" hok).1,
    ((C10_thm _ (by decide) (by decide)).2 "b" hok).2.1⟩

/-- C4: `super_majority_winner(threshold)` fails with `InvalidArgument`
for every `threshold ≤ 0.5` (including exactly `0.5`) on every counter,
without consulting the tally; for `threshold > 0.5` on a non-empty tally
with a positive voter total it returns the leading candidate (a holder of
the highest count) iff that candidate's share of the voters strictly
exceeds the threshold, failing with `WinnerNotFound` otherwise. -/
theorem C4_thm (c : Tally) (t : ℚ) :
    (t ≤ 1 / 2 → SingleMarkVote.super_majority_winner ⟨c⟩ t = .error .invalidArgument) ∧
    (1 / 2 < t → c ≠ [] → 0 < countTotal c →
      ∃ cand, (cand, maxCount c) ∈ c ∧
        (t < (maxCount c : ℚ) / (countTotal c : ℚ) →
          SingleMarkVote.super_majority_winner ⟨c⟩ t = .ok cand) ∧
        (¬ t < (maxCount c : ℚ) / (countTotal c : ℚ) →
          SingleMarkVote.super_majority_winner ⟨c⟩ t = .error .winnerNotFound)) := by
  refine ⟨fun hle => smw_invalid c t hle, fun ht hne hpos => ?_⟩
  obtain ⟨k, hk, hmem⟩ := most_common1_maxCount c hne
  refine ⟨k, hmem, fun hgt => ?_, fun hngt => ?_⟩
  · rw [smw_eq c t k hk (not_le.mpr ht) hpos, if_pos hgt]
  · rw [smw_eq c t k hk (not_le.mpr ht) hpos, if_neg hngt]

/-- C4 (witness): threshold exactly `0.5` is rejected on a concrete vote,
and with threshold `1` the docstring example admits a leading candidate
subject to the share test. -/
theorem C4_witness :
    SingleMarkVote.super_majority_winner ⟨[("a", 10), ("b", 2)]⟩ (1 / 2) =
      .error .invalidArgument ∧
    ∃ cand, (cand, maxCount [("a", 10), ("b", 30), ("c", 5), ("d", 3)]) ∈
        [("a", 10), ("b", 30), ("c", 5), ("d", 3)] ∧
      ((1 : ℚ) < (maxCount [("a", 10), ("b", 30), ("c", 5), ("d", 3)] : ℚ) /
          (countTotal [("a", 10), ("b", 30), ("c", 5), ("d", 3)] : ℚ) →
        SingleMarkVote.super_majority_winner ⟨[("a", 10), ("b", 30), ("c", 5), ("d", 3)]⟩ 1 =
          .ok cand) ∧
      (¬ (1 : ℚ) < (maxCount [("a", 10), ("b", 30), ("c", 5), ("d", 3)] : ℚ) /
          (countTotal [("a", 10), ("b", 30), ("c", 5), ("d", 3)] : ℚ) →
        SingleMarkVote.super_majority_winner ⟨[("a", 10), ("b", 30), ("c", 5), ("d", 3)]⟩ 1 =
          .error .winnerNotFound) :=
  ⟨(C4_thm [("a", 10), ("b", 2)] (1 / 2)).1 (le_refl _),
   (C4_thm [("a", 10), ("b", 30), ("c", 5), ("d", 3)] 1).2 one_half_lt_one (by decide)
     (by decide)⟩

/-- C5: `SingleMarkVote` construction fails with the validation error
citing an offending candidate and its negative value whenever any count
is negative; the validated (votingsys) variant rejects the empty tally;
and a successfully constructed vote stores exactly the given tally, which
is non-empty with all counts non-negative — so a violating input can
never produce a constructed vote. -/
theorem C5_thm :
    (∀ c : Tally, (∃ kv ∈ c, kv.2 < 0) →
      ∃ k v, (k, v) ∈ c ∧ v < 0 ∧
        SingleMarkVote.init c = .error (.negativeCount k v)) ∧
    SingleMarkVote.init [] = .error .emptyCounter ∧
    (∀ (c : Tally) (vote : SingleMarkVote), SingleMarkVote.init c = .ok vote →
      vote.counter = c ∧ c ≠ [] ∧ ∀ kv ∈ c, 0 ≤ kv.2) := by
  refine ⟨fun c hneg => ?_, by decide, fun c vote hok => ?_⟩
  · obtain ⟨k, v, hmem, hv, herr⟩ := cnnc_error_of_neg c hneg
    refine ⟨k, v, hmem, hv, ?_⟩
    rw [init_eq_match, herr]
  · rw [init_eq_match] at hok
    cases hnn : check_non_negative_count c with
    | error e => rw [hnn] at hok; exact Except.noConfusion hok
    | ok u =>
      rw [hnn] at hok
      cases hne : check_non_empty_count c with
      | error e => rw [hne] at hok; exact Except.noConfusion hok
      | ok u2 =>
        rw [hne] at hok
        obtain rfl : SingleMarkVote.mk c = vote := Except.ok.inj hok
        have hcne : c ≠ [] := by
          intro h0
          subst h0
          simp [check_non_empty_count] at hne
        obtain rfl : u = () := rfl
        exact ⟨rfl, hcne, (cnnc_ok_iff c).mp hnn⟩

/-- C5 (witness): the spec's concrete scenario
`SingleMarkVote({a:0, b:-2, c:5, d:3})` fails citing candidate `b` and
value `-2`. -/
theorem C5_witness :
    ∃ k v, (k, v) ∈ ([("a", 0), ("b", -2), ("c", 5), ("d", 3)] : Tally) ∧ v < 0 ∧
      SingleMarkVote.init [("a", 0), ("b", -2), ("c", 5), ("d", 3)] =
        .error (.negativeCount k v) :=
  C5_thm.1 [("a", 0), ("b", -2), ("c", 5), ("d", 3)] ⟨("b", -2), by decide, by decide⟩

/-- C9: for every tally, `get_num_voters()` is the sum of the counts and
`get_num_candidates()` the number of entries; for every ranking frame
whose distinct columns include the count column, `get_num_voters()` is
the sum of the count column and `get_num_candidates()` the number of
non-count columns.  All four queries are total functions of the data. -/
theorem C9_thm :
    (∀ c : Tally,
      SingleMarkVote.get_num_voters ⟨c⟩ = (c.map Prod.snd).sum ∧
      SingleMarkVote.get_num_candidates ⟨c⟩ = (c.length : Int)) ∧
    (∀ (df : DF) (w : String), w ∈ df.cols → df.cols.Nodup →
      RankedVote.get_num_voters ⟨df, w⟩ = (getCol df w).sum ∧
      RankedVote.get_num_candidates ⟨df, w⟩ = ((candCols df w).length : Int)) := by
  refine ⟨fun c => ⟨rfl, rfl⟩, fun df w hmem hnd => ⟨rfl, ?_⟩⟩
  have hcand : RankedVote.get_num_candidates ⟨df, w⟩ = (df.cols.length : Int) - 1 := rfl
  rw [hcand]
  unfold candCols
  have hlen := length_filter_ne_of_mem_nodup df.cols w hmem hnd
  have hpos : 1 ≤ df.cols.length := by
    rcases hcols : df.cols with _ | _
    · rw [hcols] at hmem
      simp at hmem
    · simp [hcols]
  omega

/-- C9 (witness): the getters evaluated on the docstring tally and on the
docstring ranking frame. -/
theorem C9_witness :
    (SingleMarkVote.get_num_voters ⟨[("a", 10), ("b", 2), ("c", 5), ("d", 3)]⟩ =
        ([("a", 10), ("b", 2), ("c", 5), ("d", 3)].map Prod.snd).sum ∧
      SingleMarkVote.get_num_candidates ⟨[("a", 10), ("b", 2), ("c", 5), ("d", 3)]⟩ =
        (([("a", 10), ("b", 2), ("c", 5), ("d", 3)] : Tally).length : Int)) ∧
    (RankedVote.get_num_voters
        ⟨⟨["a", "b", "c", "count"], [[0, 1, 2, 3], [1, 2, 0, 5], [2, 0, 1, 2]]⟩, "count"⟩ =
        (getCol ⟨["a", "b", "c", "count"], [[0, 1, 2, 3], [1, 2, 0, 5], [2, 0, 1, 2]]⟩
          "count").sum ∧
      RankedVote.get_num_candidates
        ⟨⟨["a", "b", "c", "count"], [[0, 1, 2, 3], [1, 2, 0, 5], [2, 0, 1, 2]]⟩, "count"⟩ =
        ((candCols ⟨["a", "b", "c", "count"], [[0, 1, 2, 3], [1, 2, 0, 5], [2, 0, 1, 2]]⟩
          "count").length : Int)) :=
  ⟨C9_thm.1 _, C9_thm.2 _ "count" (by decide) (by decide)⟩

theorem pw_def (c : Tally) :
    SingleMarkVote.plurality_winners ⟨c⟩ =
      (match maxVal (c.map Prod.snd) with
       | none => .error .emptySequence
       | some m => .ok (sortStr ((c.filter (fun kv => kv.2 == m)).map Prod.fst))) := rfl

theorem pwinner_def (c : Tally) :
    SingleMarkVote.plurality_winner ⟨c⟩ =
      (match SingleMarkVote.plurality_winners ⟨c⟩ with
       | .error e => .error e
       | .ok ws =>
         if 1 < ws.length then .error (.multipleWinnersFound ws)
         else match ws with
         | [] => .error .indexError
         | w :: _ => .ok w) := rfl

theorem filter_map_pair {α : Type} (g : α → Int) (p : Int → Bool) (l : List α) :
    ((l.map (fun c => (c, g c))).filter (fun kv => p kv.2)).map Prod.fst =
      l.filter (fun c => p (g c)) := by
  induction l with
  | nil => rfl
  | cons a as ih =>
    by_cases h : p (g a) <;> simp [List.filter_cons, h, ih]

theorem smv_winners_spec (c : Tally) (hne : c ≠ []) :
    ∃ ws, SingleMarkVote.plurality_winners ⟨c⟩ = .ok ws ∧ ws ≠ [] ∧
      ws.Pairwise (fun x y => strLeB x y = true) ∧
      (∀ x, x ∈ ws ↔ (x, maxCount c) ∈ c) ∧
      ((c.map Prod.fst).Nodup → ws.Nodup) := by
  have hvals : c.map Prod.snd ≠ [] := by simpa using hne
  obtain ⟨m, hm, hmem, hb⟩ := maxVal_spec _ hvals
  have hmax : maxCount c = m := by rw [maxCount, maxValD, hm]; rfl
  set L := (c.filter (fun kv => kv.2 == m)).map Prod.fst with hL
  refine ⟨sortStr L, ?_, ?_, sortStr_pairwise L, ?_, ?_⟩
  · rw [pw_def, hm]
  · obtain ⟨kv, hkv, hkv2⟩ := List.mem_map.mp hmem
    have hkvf : kv ∈ c.filter (fun kv => kv.2 == m) :=
      List.mem_filter.mpr ⟨hkv, by simp [hkv2]⟩
    have : kv.1 ∈ L := List.mem_map_of_mem _ hkvf
    intro h0
    rw [← (sortStr_perm L).mem_iff] at this
    rw [h0] at this
    simp at this
  · intro x
    rw [(sortStr_perm L).mem_iff, hL, hmax]
    constructor
    · intro hx
      obtain ⟨kv, hkv, hkv1⟩ := List.mem_map.mp hx
      obtain ⟨hkvc, hkvm⟩ := List.mem_filter.mp hkv
      have : kv = (x, m) := by
        obtain ⟨k0, v0⟩ := kv
        simp only at hkv1
        simp only [beq_iff_eq] at hkvm
        simp [hkv1, hkvm]
      rw [← this]
      exact hkvc
    · intro hx
      exact List.mem_map_of_mem _ (List.mem_filter.mpr ⟨hx, by simp⟩)
  · intro hnd
    have hsub : L.Sublist (c.map Prod.fst) := (List.filter_sublist c).map Prod.fst
    exact ((sortStr_perm L).nodup_iff).mpr (hnd.sublist hsub)

theorem smv_winner_cases (c : Tally) (ws : List String)
    (hws : SingleMarkVote.plurality_winners ⟨c⟩ = .ok ws) :
    (∀ x, ws = [x] → SingleMarkVote.plurality_winner ⟨c⟩ = .ok x) ∧
    (1 < ws.length →
      SingleMarkVote.plurality_winner ⟨c⟩ = .error (.multipleWinnersFound ws)) := by
  constructor
  · rintro x rfl
    rw [pwinner_def, hws]
    rfl
  · intro hlen
    rw [pwinner_def, hws]
    simp only [if_pos hlen]

theorem wvc_ok (df : DF) (w : String) (hmem : w ∈ df.cols) :
    weighted_value_count df 0 w =
      .ok ((candCols df w).map (fun c => (c, rank0Weight df w c))) := by
  unfold weighted_value_count
  rw [if_pos hmem]
  rfl

theorem fmim_spec (m : List (String × Int)) (hne : m ≠ []) :
    find_max_in_mapping m =
      some (sortStr ((m.filter (fun kv => kv.2 == maxValD (m.map Prod.snd))).map Prod.fst),
        maxValD (m.map Prod.snd)) := by
  have hvals : m.map Prod.snd ≠ [] := by simpa using hne
  obtain ⟨mx, hmx, _, _⟩ := maxVal_spec _ hvals
  have hval : maxValD (m.map Prod.snd) = mx := by rw [maxValD, hmx]; rfl
  unfold find_max_in_mapping
  rw [hmx, hval]

theorem counts_map_snd (df : DF) (w : String) :
    ((candCols df w).map (fun c => (c, rank0Weight df w c))).map Prod.snd =
      (candCols df w).map (rank0Weight df w) := by
  rw [List.map_map]
  rfl

theorem ranked_winners_eq (df : DF) (w : String) (hmem : w ∈ df.cols)
    (hcand : candCols df w ≠ []) :
    RankedVote.plurality_winners ⟨df, w⟩ = .ok (tiedLeaders df w) := by
  have hc : (candCols df w).map (fun c => (c, rank0Weight df w c)) ≠ [] := by
    simpa using hcand
  have hred : RankedVote.plurality_winners ⟨df, w⟩ =
      (match weighted_value_count df 0 w with
       | .error e => .error e
       | .ok counts =>
         match find_max_in_mapping counts with
         | none => .error .emptyMapping
         | some (cands, _) => .ok (sortStr cands)) := rfl
  rw [hred]
  simp only [wvc_ok df w hmem, fmim_spec _ hc]
  have hM : maxValD (((candCols df w).map (fun c => (c, rank0Weight df w c))).map Prod.snd) =
      maxRank0 df w := by
    rw [counts_map_snd]
    rfl
  rw [hM]
  rw [filter_map_pair (rank0Weight df w) (fun v => v == maxRank0 df w) (candCols df w)]
  have : sortStr (sortStr ((candCols df w).filter
      (fun c => rank0Weight df w c == maxRank0 df w))) =
      sortStr ((candCols df w).filter (fun c => rank0Weight df w c == maxRank0 df w)) :=
    sortStr_eq_self _ (sortStr_pairwise _)
  rw [tiedLeaders, this]

theorem tiedLeaders_spec (df : DF) (w : String) (hnd : df.cols.Nodup)
    (hcand : candCols df w ≠ []) :
    tiedLeaders df w ≠ [] ∧ (tiedLeaders df w).Nodup ∧
      (tiedLeaders df w).Pairwise (fun x y => strLeB x y = true) ∧
      (∀ x, x ∈ tiedLeaders df w ↔
        (x ∈ candCols df w ∧ rank0Weight df w x = maxRank0 df w)) := by
  set F := (candCols df w).filter (fun c => rank0Weight df w c == maxRank0 df w) with hF
  have hvals : (candCols df w).map (rank0Weight df w) ≠ [] := by simpa using hcand
  obtain ⟨hmm, _⟩ := maxValD_spec _ hvals
  refine ⟨?_, ?_, sortStr_pairwise F, ?_⟩
  · obtain ⟨cc, hcc, hcc2⟩ := List.mem_map.mp hmm
    have : cc ∈ F := List.mem_filter.mpr ⟨hcc, by simp [maxRank0, hcc2]⟩
    intro h0
    have hmemF : cc ∈ tiedLeaders df w := ((sortStr_perm F).mem_iff).mpr this
    rw [h0] at hmemF
    simp at hmemF
  · have hcnd : (candCols df w).Nodup := hnd.filter _
    exact ((sortStr_perm F).nodup_iff).mpr (hcnd.filter _)
  · intro x
    rw [tiedLeaders, ← hF, (sortStr_perm F).mem_iff, hF, List.mem_filter]
    simp [beq_iff_eq]

theorem ranked_winner_cases (df : DF) (w : String) (ws : List String)
    (hws : RankedVote.plurality_winners ⟨df, w⟩ = .ok ws) :
    (∀ x, ws = [x] → RankedVote.plurality_winner ⟨df, w⟩ = .ok x) ∧
    (1 < ws.length →
      RankedVote.plurality_winner ⟨df, w⟩ = .error (.multipleWinnersFound ws)) := by
  have hred : RankedVote.plurality_winner ⟨df, w⟩ =
      (match RankedVote.plurality_winners ⟨df, w⟩ with
       | .error e => .error e
       | .ok ws =>
         if 1 < ws.length then .error (.multipleWinnersFound ws)
         else match ws with
         | [] => .error .indexError
         | x :: _ => .ok x) := rfl
  constructor
  · rintro x rfl
    rw [hred, hws]
    rfl
  · intro hlen
    rw [hred, hws]
    simp only [if_pos hlen]

theorem charListLeB_refl : ∀ l : List Char, charListLeB l l = true
  | [] => rfl
  | a :: as => by
    simp only [charListLeB]
    rw [if_neg (by omega), if_neg (by omega)]
    exact charListLeB_refl as

theorem strLeB_refl (s : String) : strLeB s s = true := charListLeB_refl s.data

theorem ranked_amw_eq (df : DF) (w : String) (hmem : w ∈ df.cols) (hnd : df.cols.Nodup)
    (hcand : candCols df w ≠ []) (hpos : 0 < RankedVote.get_num_voters ⟨df, w⟩) :
    RankedVote.absolute_majority_winner ⟨df, w⟩ =
      (if RankedVote.get_num_voters ⟨df, w⟩ < 2 * maxRank0 df w
       then .ok ((tiedLeaders df w).headD "")
       else .error .winnerNotFound) := by
  have hc : (candCols df w).map (fun c => (c, rank0Weight df w c)) ≠ [] := by
    simpa using hcand
  have hred : RankedVote.absolute_majority_winner ⟨df, w⟩ =
      (match weighted_value_count df 0 w with
       | .error e => .error e
       | .ok counts =>
         match find_max_in_mapping counts with
         | none => .error .emptyMapping
         | some (cands, mx) =>
           if RankedVote.get_num_voters ⟨df, w⟩ = 0 then .error .zeroDivision
           else if (1 : ℚ) / 2 <
               (mx : ℚ) / ((RankedVote.get_num_voters ⟨df, w⟩ : Int) : ℚ) then
             match cands with
             | [] => .error .indexError
             | cand :: _ => .ok cand
           else .error .winnerNotFound) := rfl
  rw [hred]
  simp only [wvc_ok df w hmem, fmim_spec _ hc]
  have hM : maxValD (((candCols df w).map (fun c => (c, rank0Weight df w c))).map Prod.snd) =
      maxRank0 df w := by
    rw [counts_map_snd]
    rfl
  rw [hM]
  rw [filter_map_pair (rank0Weight df w) (fun v => v == maxRank0 df w) (candCols df w)]
  rw [if_neg (by omega)]
  obtain ⟨htne, -, -, -⟩ := tiedLeaders_spec df w hnd hcand
  have htl : sortStr ((candCols df w).filter
      (fun c => rank0Weight df w c == maxRank0 df w)) = tiedLeaders df w := rfl
  rw [htl]
  by_cases h : RankedVote.get_num_voters ⟨df, w⟩ < 2 * maxRank0 df w
  · rw [if_pos ((half_lt_div_iff _ _ hpos).mpr h), if_pos h]
    cases htled : tiedLeaders df w with
    | nil => exact absurd htled htne
    | cons lead restL => rfl
  · rw [if_neg (fun hc2 => h ((half_lt_div_iff _ _ hpos).mp hc2)), if_neg h]

/-- C2: for every ranked vote (count column present among the distinct
columns, at least one candidate column, positive voter total),
`absolute_majority_winner()` computes each candidate's count-weighted
total of rows ranking it at position 0, and succeeds exactly when twice
the maximum such total exceeds the voter total: on success it returns the
first candidate, in ascending lexicographic order, of the set tied at the
maximum (a tie by itself does not cause failure); otherwise it fails with
`WinnerNotFound`. -/
theorem C2_thm (df : DF) (w : String) (hmem : w ∈ df.cols) (hnd : df.cols.Nodup)
    (hcand : candCols df w ≠ []) (hpos : 0 < RankedVote.get_num_voters ⟨df, w⟩) :
    ∃ lead tied, tied = tiedLeaders df w ∧ lead ∈ tied ∧
      (∀ x, x ∈ tied ↔ (x ∈ candCols df w ∧ rank0Weight df w x = maxRank0 df w)) ∧
      (∀ x ∈ tied, strLeB lead x = true) ∧
      (RankedVote.get_num_voters ⟨df, w⟩ < 2 * maxRank0 df w →
        RankedVote.absolute_majority_winner ⟨df, w⟩ = .ok lead) ∧
      (2 * maxRank0 df w ≤ RankedVote.get_num_voters ⟨df, w⟩ →
        RankedVote.absolute_majority_winner ⟨df, w⟩ = .error .winnerNotFound) := by
  obtain ⟨htne, -, hsorted, hmemiff⟩ := tiedLeaders_spec df w hnd hcand
  cases htled : tiedLeaders df w with
  | nil => exact absurd htled htne
  | cons lead restL =>
    rw [htled] at hsorted hmemiff
    refine ⟨lead, lead :: restL, rfl, by simp, hmemiff, ?_, ?_, ?_⟩
    · intro x hx
      rcases List.mem_cons.mp hx with rfl | hx
      · exact strLeB_refl x
      · exact (List.pairwise_cons.mp hsorted).1 x hx
    · intro h
      rw [ranked_amw_eq df w hmem hnd hcand hpos, if_pos h, htled]
      rfl
    · intro h
      rw [ranked_amw_eq df w hmem hnd hcand hpos, if_neg (by omega)]

/-- C2 (witness): the docstring example, where `c` is ranked first by 6
of 11 voters and wins the absolute majority. -/
theorem C2_witness :
    ∃ lead tied,
      tied = tiedLeaders ⟨["a", "b", "c", "count"],
          [[0, 1, 2, 3], [1, 2, 0, 6], [2, 0, 1, 2]]⟩ "count" ∧
      lead ∈ tied ∧
      (∀ x, x ∈ tied ↔ (x ∈ candCols ⟨["a", "b", "c", "count"],
          [[0, 1, 2, 3], [1, 2, 0, 6], [2, 0, 1, 2]]⟩ "count" ∧
        rank0Weight ⟨["a", "b", "c", "count"],
          [[0, 1, 2, 3], [1, 2, 0, 6], [2, 0, 1, 2]]⟩ "count" x =
        maxRank0 ⟨["a", "b", "c", "count"],
          [[0, 1, 2, 3], [1, 2, 0, 6], [2, 0, 1, 2]]⟩ "count")) ∧
      (∀ x ∈ tied, strLeB lead x = true) ∧
      (RankedVote.get_num_voters ⟨⟨["a", "b", "c", "count"],
          [[0, 1, 2, 3], [1, 2, 0, 6], [2, 0, 1, 2]]⟩, "count"⟩ <
          2 * maxRank0 ⟨["a", "b", "c", "count"],
            [[0, 1, 2, 3], [1, 2, 0, 6], [2, 0, 1, 2]]⟩ "count" →
        RankedVote.absolute_majority_winner ⟨⟨["a", "b", "c", "count"],
          [[0, 1, 2, 3], [1, 2, 0, 6], [2, 0, 1, 2]]⟩, "count"⟩ = .ok lead) ∧
      (2 * maxRank0 ⟨["a", "b", "c", "count"],
          [[0, 1, 2, 3], [1, 2, 0, 6], [2, 0, 1, 2]]⟩ "count" ≤
          RankedVote.get_num_voters ⟨⟨["a", "b", "c", "count"],
            [[0, 1, 2, 3], [1, 2, 0, 6], [2, 0, 1, 2]]⟩, "count"⟩ →
        RankedVote.absolute_majority_winner ⟨⟨["a", "b", "c", "count"],
          [[0, 1, 2, 3], [1, 2, 0, 6], [2, 0, 1, 2]]⟩, "count"⟩ =
          .error .winnerNotFound) :=
  C2_thm _ "count" (by decide) (by decide) (by decide) (by decide)

/-- C3: for every vote with at least one voter (and, in the ranked model,
at least one candidate column), `plurality_winners()` returns exactly the
set of candidates achieving the maximum count — weighted first-preference
total in the ranked model — as a non-empty, duplicate-free list sorted
ascending; `plurality_winner()` returns its sole element when it is a
singleton and fails with `MultipleWinnersFound` carrying the full tied
set otherwise. -/
theorem C3_thm :
    (∀ c : Tally, (c.map Prod.fst).Nodup → 0 < countTotal c →
      ∃ ws, SingleMarkVote.plurality_winners ⟨c⟩ = .ok ws ∧
        ws ≠ [] ∧ ws.Nodup ∧ ws.Pairwise (fun x y => strLeB x y = true) ∧
        (∀ x, x ∈ ws ↔ (x, maxCount c) ∈ c) ∧
        (∀ x, ws = [x] → SingleMarkVote.plurality_winner ⟨c⟩ = .ok x) ∧
        (1 < ws.length →
          SingleMarkVote.plurality_winner ⟨c⟩ = .error (.multipleWinnersFound ws))) ∧
    (∀ (df : DF) (w : String), w ∈ df.cols → df.cols.Nodup → candCols df w ≠ [] →
      0 < RankedVote.get_num_voters ⟨df, w⟩ →
      ∃ ws, RankedVote.plurality_winners ⟨df, w⟩ = .ok ws ∧
        ws ≠ [] ∧ ws.Nodup ∧ ws.Pairwise (fun x y => strLeB x y = true) ∧
        (∀ x, x ∈ ws ↔ (x ∈ candCols df w ∧ rank0Weight df w x = maxRank0 df w)) ∧
        (∀ x, ws = [x] → RankedVote.plurality_winner ⟨df, w⟩ = .ok x) ∧
        (1 < ws.length →
          RankedVote.plurality_winner ⟨df, w⟩ = .error (.multipleWinnersFound ws))) := by
  constructor
  · intro c hnd hpos
    have hne : c ≠ [] := by
      rintro rfl
      simp [countTotal] at hpos
    obtain ⟨ws, hws, hwne, hsorted, hmemiff, hnodup⟩ := smv_winners_spec c hne
    obtain ⟨hone, hmany⟩ := smv_winner_cases c ws hws
    exact ⟨ws, hws, hwne, hnodup hnd, hsorted, hmemiff, hone, hmany⟩
  · intro df w hmem hnd hcand _
    obtain ⟨htne, htnd, hsorted, hmemiff⟩ := tiedLeaders_spec df w hnd hcand
    have hws := ranked_winners_eq df w hmem hcand
    obtain ⟨hone, hmany⟩ := ranked_winner_cases df w (tiedLeaders df w) hws
    exact ⟨tiedLeaders df w, hws, htne, htnd, hsorted, hmemiff, hone, hmany⟩

/-- C3 (witness): the single-mark part on the docstring tally with tied
leaders `a` and `e`, and the ranked part on the docstring frame where `c`
leads. -/
theorem C3_witness :
    (∃ ws, SingleMarkVote.plurality_winners
        ⟨[("a", 10), ("b", 2), ("c", 5), ("d", 3), ("e", 10)]⟩ = .ok ws ∧
      ws ≠ [] ∧ ws.Nodup ∧ ws.Pairwise (fun x y => strLeB x y = true) ∧
      (∀ x, x ∈ ws ↔ (x, maxCount [("a", 10), ("b", 2), ("c", 5), ("d", 3), ("e", 10)]) ∈
        [("a", 10), ("b", 2), ("c", 5), ("d", 3), ("e", 10)]) ∧
      (∀ x, ws = [x] → SingleMarkVote.plurality_winner
        ⟨[("a", 10), ("b", 2), ("c", 5), ("d", 3), ("e", 10)]⟩ = .ok x) ∧
      (1 < ws.length → SingleMarkVote.plurality_winner
        ⟨[("a", 10), ("b", 2), ("c", 5), ("d", 3), ("e", 10)]⟩ =
        .error (.multipleWinnersFound ws))) ∧
    (∃ ws, RankedVote.plurality_winners ⟨⟨["a", "b", "c", "count"],
        [[0, 1, 2, 3], [1, 2, 0, 6], [2, 0, 1, 2]]⟩, "count"⟩ = .ok ws ∧
      ws ≠ [] ∧ ws.Nodup ∧ ws.Pairwise (fun x y => strLeB x y = true) ∧
      (∀ x, x ∈ ws ↔ (x ∈ candCols ⟨["a", "b", "c", "count"],
          [[0, 1, 2, 3], [1, 2, 0, 6], [2, 0, 1, 2]]⟩ "count" ∧
        rank0Weight ⟨["a", "b", "c", "count"],
          [[0, 1, 2, 3], [1, 2, 0, 6], [2, 0, 1, 2]]⟩ "count" x =
        maxRank0 ⟨["a", "b", "c", "count"],
          [[0, 1, 2, 3], [1, 2, 0, 6], [2, 0, 1, 2]]⟩ "count")) ∧
      (∀ x, ws = [x] → RankedVote.plurality_winner ⟨⟨["a", "b", "c", "count"],
        [[0, 1, 2, 3], [1, 2, 0, 6], [2, 0, 1, 2]]⟩, "count"⟩ = .ok x) ∧
      (1 < ws.length → RankedVote.plurality_winner ⟨⟨["a", "b", "c", "count"],
        [[0, 1, 2, 3], [1, 2, 0, 6], [2, 0, 1, 2]]⟩, "count"⟩ =
        .error (.multipleWinnersFound ws))) :=
  ⟨C3_thm.1 _ (by decide) (by decide),
   C3_thm.2 _ "count" (by decide) (by decide) (by decide) (by decide)⟩

/-- C8 (counterexample): on the empty tally the prefvoting
`plurality_winners()` raises `WinnerNotFound` rather than returning an
empty sequence, and on a votingsys zero-voter vote `plurality_winner()`
raises `MultipleWinnersFound` (all candidates tie at zero) rather than
`WinnerNotFound`; the votingsys variant cannot even be handed an empty
tally, and on a raw empty counter its `plurality_winners()` would raise
`ValueError` from `max()`. -/
theorem C8_counterexample :
    pfPluralityWinners [] = .error .winnerNotFound ∧
    pfPluralityWinners [] ≠ .ok [] ∧
    SingleMarkVote.plurality_winner ⟨[("a", 0), ("b", 0)]⟩ =
      .error (.multipleWinnersFound ["a", "b"]) ∧
    SingleMarkVote.plurality_winner ⟨[("a", 0), ("b", 0)]⟩ ≠ .error .winnerNotFound ∧
    SingleMarkVote.plurality_winners ⟨[]⟩ = .error .emptySequence :=
  ⟨by decide, by decide, by decide, by decide, by decide⟩

theorem pf_winners_eq_votingsys (c : Tally) (h : countTotal c ≠ 0) :
    pfPluralityWinners c = SingleMarkVote.plurality_winners ⟨c⟩ := by
  unfold pfPluralityWinners
  rw [if_neg h, pw_def]

/-- C8 (amended): in the prefvoting variant, `plurality_winners()` and
`plurality_winner()` fail with `WinnerNotFound` exactly on zero-voter
votes (including the empty tally — an empty sequence is never returned):
whenever the voter total is nonzero, `plurality_winners()` succeeds with
the non-empty set of tied leaders, so a tie by itself never makes it
fail.  In the votingsys variant the constructor rejects the empty tally
outright, and on every constructible vote — zero-voter votes included —
`plurality_winners()` succeeds with a non-empty tied-leader list while
`plurality_winner()` either returns the sole leader or fails with
`MultipleWinnersFound`, never with `WinnerNotFound`. -/
theorem C8_amended_thm :
    (∀ c : Tally, countTotal c = 0 →
      pfPluralityWinners c = .error .winnerNotFound ∧
      pfPluralityWinner c = .error .winnerNotFound) ∧
    (∀ c : Tally, countTotal c ≠ 0 →
      ∃ ws, pfPluralityWinners c = .ok ws ∧ ws ≠ [] ∧
        (∀ x, x ∈ ws ↔ (x, maxCount c) ∈ c)) ∧
    (∀ c : Tally, c ≠ [] →
      ∃ ws, SingleMarkVote.plurality_winners ⟨c⟩ = .ok ws ∧ ws ≠ [] ∧
        ((∃ x, ws = [x] ∧ SingleMarkVote.plurality_winner ⟨c⟩ = .ok x) ∨
          SingleMarkVote.plurality_winner ⟨c⟩ = .error (.multipleWinnersFound ws)) ∧
        SingleMarkVote.plurality_winner ⟨c⟩ ≠ .error .winnerNotFound) ∧
    SingleMarkVote.init [] = .error .emptyCounter := by
  refine ⟨fun c h0 => ?_, fun c h0 => ?_, fun c hne => ?_, by decide⟩
  · have hw : pfPluralityWinners c = .error .winnerNotFound := by
      unfold pfPluralityWinners
      rw [if_pos h0]
    refine ⟨hw, ?_⟩
    unfold pfPluralityWinner
    rw [hw]
  · have hne : c ≠ [] := by
      rintro rfl
      exact h0 rfl
    obtain ⟨ws, hws, hwne, -, hmemiff, -⟩ := smv_winners_spec c hne
    refine ⟨ws, ?_, hwne, hmemiff⟩
    rw [pf_winners_eq_votingsys c h0]
    exact hws
  · obtain ⟨ws, hws, hwne, -, -, -⟩ := smv_winners_spec c hne
    obtain ⟨hone, hmany⟩ := smv_winner_cases c ws hws
    cases ws with
    | nil => exact absurd rfl hwne
    | cons x t =>
      cases t with
      | nil =>
        have hok := hone x rfl
        exact ⟨[x], hws, hwne, Or.inl ⟨x, rfl, hok⟩, by rw [hok]; exact fun h => by cases h⟩
      | cons y t2 =>
        have herr := hmany (by simp)
        refine ⟨x :: y :: t2, hws, hwne, Or.inr herr, ?_⟩
        rw [herr]
        intro h
        cases h

/-- C8 (witness): the amended theorem applied to the empty tally (zero
voters), to a tied five-candidate tally with 30 voters, and to a
two-candidate zero-voter tally. -/
theorem C8_witness :
    (pfPluralityWinners [] = .error .winnerNotFound ∧
      pfPluralityWinner [] = .error .winnerNotFound) ∧
    (∃ ws, pfPluralityWinners [("a", 10), ("b", 2), ("c", 5), ("d", 3), ("e", 10)] =
        .ok ws ∧ ws ≠ [] ∧
      (∀ x, x ∈ ws ↔
        (x, maxCount [("a", 10), ("b", 2), ("c", 5), ("d", 3), ("e", 10)]) ∈
          [("a", 10), ("b", 2), ("c", 5), ("d", 3), ("e", 10)])) ∧
    (∃ ws, SingleMarkVote.plurality_winners ⟨[("a", 0), ("b", 0)]⟩ = .ok ws ∧ ws ≠ [] ∧
      ((∃ x, ws = [x] ∧ SingleMarkVote.plurality_winner ⟨[("a", 0), ("b", 0)]⟩ = .ok x) ∨
        SingleMarkVote.plurality_winner ⟨[("a", 0), ("b", 0)]⟩ =
          .error (.multipleWinnersFound ws)) ∧
      SingleMarkVote.plurality_winner ⟨[("a", 0), ("b", 0)]⟩ ≠ .error .winnerNotFound) :=
  ⟨C8_amended_thm.1 [] (by decide),
   C8_amended_thm.2.1 [("a", 10), ("b", 2), ("c", 5), ("d", 3), ("e", 10)] (by decide),
   C8_amended_thm.2.2.1 [("a", 0), ("b", 0)] (by decide)⟩

theorem sumKey_nil (k : List Int) : sumKey [] k = 0 := rfl

theorem sumKey_cons (q : List Int × Int) (rest : List (List Int × Int)) (k : List Int) :
    sumKey (q :: rest) k = (if q.1 = k then q.2 else 0) + sumKey rest k := by
  unfold sumKey
  rw [List.filter_cons]
  by_cases h : q.1 = k
  · rw [if_pos (by simp [h]), if_pos h]
    simp
  · rw [if_neg (by simp [h]), if_neg h]
    simp

theorem sumKey_append (l1 l2 : List (List Int × Int)) (k : List Int) :
    sumKey (l1 ++ l2) k = sumKey l1 k + sumKey l2 k := by
  unfold sumKey
  rw [List.filter_append, List.map_append, List.sum_append]

theorem keys_map_update (acc : List (List Int × Int)) (x : List Int) (d : Int) :
    (acc.map (fun p => if p.1 == x then (p.1, p.2 + d) else p)).map Prod.fst =
      acc.map Prod.fst := by
  induction acc with
  | nil => rfl
  | cons q rest ih =>
    simp only [List.map_cons, ih]
    congr 1
    by_cases h : (q.1 == x) = true
    · rw [if_pos h]
    · rw [if_neg h]

theorem any_key_iff (acc : List (List Int × Int)) (x : List Int) :
    acc.any (fun p => p.1 == x) = true ↔ x ∈ acc.map Prod.fst := by
  simp only [List.any_eq_true, beq_iff_eq, List.mem_map]

theorem keys_addPair (acc : List (List Int × Int)) (kv : List Int × Int) :
    (addPair acc kv).map Prod.fst =
      (if kv.1 ∈ acc.map Prod.fst then acc.map Prod.fst
       else acc.map Prod.fst ++ [kv.1]) := by
  unfold addPair
  by_cases h : acc.any (fun p => p.1 == kv.1) = true
  · rw [if_pos h, if_pos ((any_key_iff acc kv.1).mp h), keys_map_update]
  · rw [if_neg h, if_neg (fun hm => h ((any_key_iff acc kv.1).mpr hm))]
    simp

theorem nodup_append_single {α : Type} (l : List α) (x : α) (hnd : l.Nodup) (hx : x ∉ l) :
    (l ++ [x]).Nodup := by
  rw [List.nodup_append]
  refine ⟨hnd, List.nodup_singleton x, ?_⟩
  intro a ha hax
  simp only [List.mem_singleton] at hax
  exact hx (hax ▸ ha)

theorem nodup_keys_addPair (acc : List (List Int × Int)) (kv : List Int × Int)
    (hnd : (acc.map Prod.fst).Nodup) : ((addPair acc kv).map Prod.fst).Nodup := by
  rw [keys_addPair]
  by_cases h : kv.1 ∈ acc.map Prod.fst
  · rw [if_pos h]
    exact hnd
  · rw [if_neg h]
    exact nodup_append_single _ _ hnd h

theorem map_update_id (rest : List (List Int × Int)) (x : List Int) (d : Int)
    (hx : x ∉ rest.map Prod.fst) :
    rest.map (fun p => if p.1 == x then (p.1, p.2 + d) else p) = rest := by
  induction rest with
  | nil => rfl
  | cons q r ih =>
    simp only [List.map_cons, List.mem_cons, not_or] at hx
    obtain ⟨hq, hr⟩ := hx
    simp only [List.map_cons]
    rw [if_neg (by simp; exact fun he => hq he.symm), ih hr]

theorem sumKey_map_update (acc : List (List Int × Int)) (x : List Int) (d : Int) (k : List Int)
    (hnd : (acc.map Prod.fst).Nodup) (hx : x ∈ acc.map Prod.fst) :
    sumKey (acc.map (fun p => if p.1 == x then (p.1, p.2 + d) else p)) k =
      sumKey acc k + (if x = k then d else 0) := by
  induction acc with
  | nil => simp at hx
  | cons q rest ih =>
    simp only [List.map_cons, List.nodup_cons] at hnd
    obtain ⟨hqn, hnd'⟩ := hnd
    simp only [List.map_cons]
    by_cases hq : q.1 = x
    · rw [if_pos (by simp [hq])]
      rw [map_update_id rest x d (hq ▸ hqn)]
      rw [sumKey_cons, sumKey_cons]
      subst hq
      by_cases hk : q.1 = k
      · rw [if_pos hk, if_pos hk, if_pos hk]
        ring
      · rw [if_neg hk, if_neg hk, if_neg hk]
        ring
    · rw [if_neg (by simp [hq])]
      rw [sumKey_cons, sumKey_cons]
      have hx' : x ∈ rest.map Prod.fst := by
        simp only [List.map_cons, List.mem_cons] at hx
        rcases hx with h | h
        · exact absurd h.symm hq
        · exact h
      rw [ih hnd' hx']
      ring

theorem sumKey_addPair (acc : List (List Int × Int)) (kv : List Int × Int) (k : List Int)
    (hnd : (acc.map Prod.fst).Nodup) :
    sumKey (addPair acc kv) k = sumKey acc k + (if kv.1 = k then kv.2 else 0) := by
  unfold addPair
  by_cases h : acc.any (fun p => p.1 == kv.1) = true
  · rw [if_pos h]
    exact sumKey_map_update acc kv.1 kv.2 k hnd ((any_key_iff acc kv.1).mp h)
  · rw [if_neg h]
    rw [sumKey_append, sumKey_cons, sumKey_nil]
    ring

theorem self_sumKey (acc : List (List Int × Int)) (hnd : (acc.map Prod.fst).Nodup) :
    ∀ p ∈ acc, sumKey acc p.1 = p.2 := by
  induction acc with
  | nil => simp
  | cons q rest ih =>
    simp only [List.map_cons, List.nodup_cons] at hnd
    obtain ⟨hqn, hnd'⟩ := hnd
    intro p hp
    rcases List.mem_cons.mp hp with rfl | hp
    · rw [sumKey_cons, if_pos rfl]
      have hz : sumKey rest p.1 = 0 := by
        unfold sumKey
        have : rest.filter (fun r => r.1 == p.1) = [] := by
          rw [List.filter_eq_nil_iff]
          intro r hr
          simp only [beq_iff_eq]
          intro he
          exact hqn (he ▸ List.mem_map_of_mem Prod.fst hr)
        rw [this]
        rfl
      rw [hz]
      ring
    · rw [sumKey_cons]
      have hne : q.1 ≠ p.1 := by
        intro he
        exact hqn (he ▸ List.mem_map_of_mem Prod.fst hp)
      rw [if_neg hne, ih hnd' p hp]
      ring

theorem foldl_addPair_keys_mem (l : List (List Int × Int)) (k : List Int) :
    ∀ acc, k ∈ (l.foldl addPair acc).map Prod.fst ↔
      (k ∈ acc.map Prod.fst ∨ k ∈ l.map Prod.fst) := by
  induction l with
  | nil => simp
  | cons q rest ih =>
    intro acc
    rw [List.foldl_cons, ih, keys_addPair]
    by_cases h : q.1 ∈ acc.map Prod.fst
    · rw [if_pos h]
      simp only [List.map_cons, List.mem_cons]
      constructor
      · rintro (hk | hk)
        · exact Or.inl hk
        · exact Or.inr (Or.inr hk)
      · rintro (hk | rfl | hk)
        · exact Or.inl hk
        · exact Or.inl h
        · exact Or.inr hk
    · rw [if_neg h]
      simp only [List.mem_append, List.mem_singleton, List.map_cons, List.mem_cons]
      tauto

theorem foldl_addPair_nodup (l : List (List Int × Int)) :
    ∀ acc, (acc.map Prod.fst).Nodup → ((l.foldl addPair acc).map Prod.fst).Nodup := by
  induction l with
  | nil => intro acc h; exact h
  | cons q rest ih =>
    intro acc h
    exact ih (addPair acc q) (nodup_keys_addPair acc q h)

theorem foldl_addPair_val (l : List (List Int × Int)) :
    ∀ acc, (acc.map Prod.fst).Nodup →
      ∀ p ∈ l.foldl addPair acc, p.2 = sumKey acc p.1 + sumKey l p.1 := by
  induction l with
  | nil =>
    intro acc hnd p hp
    rw [sumKey_nil, (self_sumKey acc hnd p hp)]
    ring
  | cons q rest ih =>
    intro acc hnd p hp
    rw [List.foldl_cons] at hp
    have hval := ih (addPair acc q) (nodup_keys_addPair acc q hnd) p hp
    rw [hval, sumKey_addPair acc q p.1 hnd, sumKey_cons]
    ring

theorem foldl_addPair_total (l : List (List Int × Int)) :
    ∀ acc, (acc.map Prod.fst).Nodup →
      ((l.foldl addPair acc).map Prod.snd).sum =
        (acc.map Prod.snd).sum + (l.map Prod.snd).sum := by
  induction l with
  | nil => intro acc _; simp
  | cons q rest ih =>
    intro acc hnd
    rw [List.foldl_cons, ih (addPair acc q) (nodup_keys_addPair acc q hnd)]
    have htot : ((addPair acc q).map Prod.snd).sum = (acc.map Prod.snd).sum + q.2 := by
      unfold addPair
      by_cases h : acc.any (fun p => p.1 == q.1) = true
      · rw [if_pos h]
        have hx := (any_key_iff acc q.1).mp h
        clear h
        induction acc with
        | nil => simp at hx
        | cons a rest2 ih2 =>
          simp only [List.map_cons, List.nodup_cons] at hnd
          obtain ⟨han, hnd2⟩ := hnd
          simp only [List.map_cons]
          by_cases ha : a.1 = q.1
          · rw [if_pos (by simp [ha])]
            rw [map_update_id rest2 q.1 q.2 (ha ▸ han)]
            simp only [List.map_cons, List.sum_cons]
            ring
          · rw [if_neg (by simp [ha])]
            have hx2 : q.1 ∈ rest2.map Prod.fst := by
              simp only [List.map_cons, List.mem_cons] at hx
              rcases hx with h1 | h1
              · exact absurd h1.symm ha
              · exact h1
            simp only [List.map_cons, List.sum_cons]
            rw [ih2 hnd2 hx2]
            ring
      · rw [if_neg h]
        simp
    rw [htot]
    simp only [List.map_cons, List.sum_cons]
    ring

theorem foldl_addPair_id (l : List (List Int × Int)) :
    ∀ acc, (((acc ++ l).map Prod.fst).Nodup) → l.foldl addPair acc = acc ++ l := by
  induction l with
  | nil => intro acc _; simp
  | cons q rest ih =>
    intro acc hnd
    have hq : q.1 ∉ acc.map Prod.fst := by
      intro hmem
      rw [List.map_append] at hnd
      obtain ⟨-, -, hdisj⟩ := List.nodup_append.mp hnd
      exact hdisj hmem (by simp)
    have hany : ¬ acc.any (fun p => p.1 == q.1) = true :=
      fun h => hq ((any_key_iff acc q.1).mp h)
    rw [List.foldl_cons]
    have haddq : addPair acc q = acc ++ [q] := by
      unfold addPair
      rw [if_neg hany]
    rw [haddq]
    have hnd' : (((acc ++ [q]) ++ rest).map Prod.fst).Nodup := by
      rw [List.append_assoc]
      simpa using hnd
    rw [ih (acc ++ [q]) hnd', List.append_assoc]
    rfl

theorem groupPairs_keys_nodup (l : List (List Int × Int)) :
    ((groupPairs l).map Prod.fst).Nodup :=
  foldl_addPair_nodup l [] (by simp)

theorem groupPairs_mem_val (l : List (List Int × Int)) :
    ∀ p ∈ groupPairs l, p.2 = sumKey l p.1 := by
  intro p hp
  have := foldl_addPair_val l [] (by simp) p hp
  rw [sumKey_nil] at this
  omega

theorem groupPairs_total (l : List (List Int × Int)) :
    ((groupPairs l).map Prod.snd).sum = (l.map Prod.snd).sum := by
  have := foldl_addPair_total l [] (by simp)
  simpa using this

theorem groupPairs_keys_mem (l : List (List Int × Int)) (k : List Int) :
    k ∈ (groupPairs l).map Prod.fst ↔ k ∈ l.map Prod.fst := by
  have := foldl_addPair_keys_mem l k []
  simpa using this

theorem groupPairs_id (l : List (List Int × Int)) (hnd : (l.map Prod.fst).Nodup) :
    groupPairs l = l := by
  have := foldl_addPair_id l [] (by simpa using hnd)
  simpa using this

theorem groupPairs_pair_mem (l : List (List Int × Int)) (k : List Int)
    (hk : k ∈ l.map Prod.fst) : (k, sumKey l k) ∈ groupPairs l := by
  have hmem : k ∈ (groupPairs l).map Prod.fst := (groupPairs_keys_mem l k).mpr hk
  obtain ⟨p, hp, hp1⟩ := List.mem_map.mp hmem
  have hval := groupPairs_mem_val l p hp
  have : p = (k, sumKey l k) := by
    obtain ⟨p1, p2⟩ := p
    simp only at hp1 hval
    rw [hp1] at hval ⊢
    rw [hval]
  rw [← this]
  exact hp

theorem keyOf_length (cols : List String) (w : String) :
    ∀ r : List Int, r.length = cols.length →
      (keyOf cols w r).length = (cols.filter (fun c => c != w)).length := by
  induction cols with
  | nil =>
    intro r hr
    cases r with
    | nil => rfl
    | cons v vs => simp at hr
  | cons c cs ih =>
    intro r hr
    cases r with
    | nil => simp at hr
    | cons v vs =>
      simp only [List.length_cons] at hr
      have hr' : vs.length = cs.length := by omega
      unfold keyOf
      rw [List.zip_cons_cons, List.filter_cons, List.filter_cons]
      by_cases h : (c != w) = true
      · rw [if_pos h, if_pos h]
        simp only [List.map_cons, List.length_cons]
        have := ih vs hr'
        unfold keyOf at this
        rw [this]
      · rw [if_neg h, if_neg h]
        have := ih vs hr'
        unfold keyOf at this
        rw [this]

theorem cell_append_last (names : List String) (w : String) :
    ∀ vals : List Int, ∀ x : Int, w ∉ names → names.length = vals.length →
      cell (names ++ [w]) (vals ++ [x]) w = x := by
  induction names with
  | nil =>
    intro vals x _ hlen
    cases vals with
    | nil => simp [cell]
    | cons v vs => simp at hlen
  | cons c cs ih =>
    intro vals x hw hlen
    cases vals with
    | nil => simp at hlen
    | cons v vs =>
      simp only [List.mem_cons, not_or] at hw
      obtain ⟨hcw, hw'⟩ := hw
      simp only [List.length_cons] at hlen
      have hbeq : (c == w) = false := beq_eq_false_iff_ne.mpr (fun he => hcw he.symm)
      unfold cell
      rw [List.cons_append, List.cons_append, List.zip_cons_cons]
      simp only [List.find?_cons, hbeq]
      have := ih vs x hw' (by omega)
      unfold cell at this
      exact this

theorem keyOf_append_last (names : List String) (w : String) :
    ∀ vals : List Int, ∀ x : Int, (∀ c ∈ names, c ≠ w) → names.length = vals.length →
      keyOf (names ++ [w]) w (vals ++ [x]) = vals := by
  induction names with
  | nil =>
    intro vals x _ hlen
    cases vals with
    | nil => simp [keyOf]
    | cons v vs => simp at hlen
  | cons c cs ih =>
    intro vals x hw hlen
    cases vals with
    | nil => simp at hlen
    | cons v vs =>
      have hcw : c ≠ w := hw c (by simp)
      simp only [List.length_cons] at hlen
      unfold keyOf
      rw [List.cons_append, List.cons_append, List.zip_cons_cons, List.filter_cons]
      rw [if_pos (by simpa using hcw)]
      simp only [List.map_cons]
      have := ih vs x (fun d hd => hw d (List.mem_cons_of_mem _ hd)) (by omega)
      unfold keyOf at this
      rw [this]

theorem not_mem_filter_ne (cols : List String) (w : String) :
    ∀ c ∈ cols.filter (fun c => c != w), c ≠ w := by
  intro c hc
  have := List.of_mem_filter hc
  simpa using this

theorem w_not_mem_filter (cols : List String) (w : String) :
    w ∉ cols.filter (fun c => c != w) :=
  fun hw => (not_mem_filter_ne cols w w hw) rfl

theorem rowPairs_keys (df : DF) (w : String) :
    (rowPairs df w).map Prod.fst = df.rows.map (keyOf df.cols w) := by
  rw [rowPairs, List.map_map]
  rfl

theorem rowPairs_snds (df : DF) (w : String) :
    (rowPairs df w).map Prod.snd = df.rows.map (fun r => cell df.cols r w) := by
  rw [rowPairs, List.map_map]
  rfl

theorem gp_key_length (df : DF) (w : String)
    (hlen : ∀ r ∈ df.rows, r.length = df.cols.length) :
    ∀ p ∈ groupPairs (rowPairs df w),
      p.1.length = (df.cols.filter (fun c => c != w)).length := by
  intro p hp
  have hk : p.1 ∈ (rowPairs df w).map Prod.fst :=
    (groupPairs_keys_mem (rowPairs df w) p.1).mp (List.mem_map_of_mem Prod.fst hp)
  rw [rowPairs_keys] at hk
  obtain ⟨r, hr, hrk⟩ := List.mem_map.mp hk
  rw [← hrk]
  exact keyOf_length df.cols w r (hlen r hr)

theorem map_congr_on {α β : Type} (l : List α) (f g : α → β) (h : ∀ a ∈ l, f a = g a) :
    l.map f = l.map g := by
  induction l with
  | nil => rfl
  | cons a as ih =>
    simp only [List.map_cons]
    rw [h a (by simp), ih (fun b hb => h b (by simp [hb]))]

theorem sum_snd_filter_nonzero (l : List (List Int × Int)) :
    ((l.filter (fun p => p.2 != 0)).map Prod.snd).sum = (l.map Prod.snd).sum := by
  induction l with
  | nil => rfl
  | cons p rest ih =>
    rw [List.filter_cons]
    by_cases h : (p.2 != 0) = true
    · rw [if_pos h]
      simp only [List.map_cons, List.sum_cons, ih]
    · rw [if_neg h]
      have hz : p.2 = 0 := by simpa using h
      simp only [List.map_cons, List.sum_cons, ih, hz]
      ring

theorem fdwc_core (df : DF) (w : String)
    (hlen : ∀ r ∈ df.rows, r.length = df.cols.length) :
    ((RankedVote.from_dataframe_with_count df w).ranking.cols =
        df.cols.filter (fun c => c != w) ++ [w]) ∧
    ((RankedVote.from_dataframe_with_count df w).ranking.rows.Perm
      (((groupPairs (rowPairs df w)).filter (fun p => p.2 != 0)).map
        (fun p => p.1 ++ [p.2]))) ∧
    (∀ p ∈ (groupPairs (rowPairs df w)).filter (fun p => p.2 != 0),
      keyOf (df.cols.filter (fun c => c != w) ++ [w]) w (p.1 ++ [p.2]) = p.1 ∧
      cell (df.cols.filter (fun c => c != w) ++ [w]) (p.1 ++ [p.2]) w = p.2) ∧
    ((RankedVote.from_dataframe_with_count df w).ranking.rows.Pairwise
      (fun r1 r2 => rowGeB (df.cols.filter (fun c => c != w) ++ [w])
        (sortKeyCols df.cols w) r1 r2 = true)) := by
  have hkeyfacts : ∀ p ∈ groupPairs (rowPairs df w),
      keyOf (df.cols.filter (fun c => c != w) ++ [w]) w (p.1 ++ [p.2]) = p.1 ∧
      cell (df.cols.filter (fun c => c != w) ++ [w]) (p.1 ++ [p.2]) w = p.2 := by
    intro p hp
    have hplen := gp_key_length df w hlen p hp
    constructor
    · exact keyOf_append_last _ w p.1 p.2 (not_mem_filter_ne df.cols w) hplen.symm
    · exact cell_append_last _ w p.1 p.2 (w_not_mem_filter df.cols w) hplen.symm
  have hrows0 : (RankedVote.from_dataframe_with_count df w).ranking.rows =
      insSort (rowGeB (df.cols.filter (fun c => c != w) ++ [w]) (sortKeyCols df.cols w))
        (((groupPairs (rowPairs df w)).map (fun p => p.1 ++ [p.2])).filter
          (fun r => cell (df.cols.filter (fun c => c != w) ++ [w]) r w != 0)) := rfl
  have hfm : ((groupPairs (rowPairs df w)).map (fun p => p.1 ++ [p.2])).filter
        (fun r => cell (df.cols.filter (fun c => c != w) ++ [w]) r w != 0) =
      ((groupPairs (rowPairs df w)).filter (fun p => p.2 != 0)).map
        (fun p => p.1 ++ [p.2]) := by
    rw [List.filter_map]
    congr 1
    apply List.filter_congr
    intro p hp
    simp only [Function.comp_apply]
    rw [(hkeyfacts p hp).2]
  refine ⟨rfl, ?_, fun p hp => hkeyfacts p (List.mem_filter.mp hp).1, ?_⟩
  · rw [hrows0, hfm]
    exact insSort_perm _ _
  · rw [hrows0]
    exact insSort_pairwise _ (rowGeB_total _ _) (rowGeB_trans _ _) _

/-- C6: `from_dataframe_with_count` compacts a counted ranking table:
each distinct ranking pattern (the row's non-count cells) appears in at
most one output row, whose count cell is the sum of that pattern's input
counts; patterns whose summed count is exactly zero are absent, every
other input pattern is present; the rows are sorted descending by the
composite key (count column first, then the candidate columns in sorted
name order); and the total of the count column is unchanged. -/
theorem C6_thm (df : DF) (w : String)
    (hlen : ∀ r ∈ df.rows, r.length = df.cols.length) :
    ((RankedVote.from_dataframe_with_count df w).ranking.rows.map
        (keyOf (RankedVote.from_dataframe_with_count df w).ranking.cols w)).Nodup ∧
    (∀ r ∈ (RankedVote.from_dataframe_with_count df w).ranking.rows,
      keyOf (RankedVote.from_dataframe_with_count df w).ranking.cols w r ∈
          df.rows.map (keyOf df.cols w) ∧
      cell (RankedVote.from_dataframe_with_count df w).ranking.cols r w =
          sumKey (rowPairs df w)
            (keyOf (RankedVote.from_dataframe_with_count df w).ranking.cols w r) ∧
      cell (RankedVote.from_dataframe_with_count df w).ranking.cols r w ≠ 0) ∧
    (∀ k ∈ df.rows.map (keyOf df.cols w), sumKey (rowPairs df w) k ≠ 0 →
      k ∈ (RankedVote.from_dataframe_with_count df w).ranking.rows.map
        (keyOf (RankedVote.from_dataframe_with_count df w).ranking.cols w)) ∧
    ((RankedVote.from_dataframe_with_count df w).ranking.rows.Pairwise
      (fun r1 r2 => rowGeB (RankedVote.from_dataframe_with_count df w).ranking.cols
        (sortKeyCols df.cols w) r1 r2 = true)) ∧
    ((RankedVote.from_dataframe_with_count df w).ranking.rows.map
        (fun r => cell (RankedVote.from_dataframe_with_count df w).ranking.cols r w)).sum =
      (df.rows.map (fun r => cell df.cols r w)).sum := by
  obtain ⟨hcols, hperm, hkf, hsorted⟩ := fdwc_core df w hlen
  rw [hcols]
  have hkeymap : (((groupPairs (rowPairs df w)).filter (fun p => p.2 != 0)).map
        (fun p => p.1 ++ [p.2])).map
        (keyOf (df.cols.filter (fun c => c != w) ++ [w]) w) =
      ((groupPairs (rowPairs df w)).filter (fun p => p.2 != 0)).map Prod.fst := by
    rw [List.map_map]
    exact map_congr_on _ _ _ (fun p hp => (hkf p hp).1)
  have hpermkeys : ((RankedVote.from_dataframe_with_count df w).ranking.rows.map
        (keyOf (df.cols.filter (fun c => c != w) ++ [w]) w)).Perm
      (((groupPairs (rowPairs df w)).filter (fun p => p.2 != 0)).map Prod.fst) := by
    rw [← hkeymap]
    exact hperm.map _
  refine ⟨?_, ?_, ?_, hsorted, ?_⟩
  · rw [hpermkeys.nodup_iff]
    have hsub : (((groupPairs (rowPairs df w)).filter (fun p => p.2 != 0)).map
        Prod.fst).Sublist ((groupPairs (rowPairs df w)).map Prod.fst) :=
      (List.filter_sublist _).map Prod.fst
    exact (groupPairs_keys_nodup (rowPairs df w)).sublist hsub
  · intro r hr
    have hrG := hperm.mem_iff.mp hr
    obtain ⟨p, hpf, rfl⟩ := List.mem_map.mp hrG
    have hpgp : p ∈ groupPairs (rowPairs df w) := (List.mem_filter.mp hpf).1
    have hz : p.2 ≠ 0 := by
      have := (List.mem_filter.mp hpf).2
      simpa using this
    obtain ⟨hkey, hcell⟩ := hkf p hpf
    rw [hkey, hcell]
    refine ⟨?_, ?_, hz⟩
    · rw [← rowPairs_keys]
      exact (groupPairs_keys_mem (rowPairs df w) p.1).mp (List.mem_map_of_mem Prod.fst hpgp)
    · exact groupPairs_mem_val (rowPairs df w) p hpgp
  · intro k hk hsum
    have hkmem : k ∈ (rowPairs df w).map Prod.fst := by
      rw [rowPairs_keys]
      exact hk
    have hpair : (k, sumKey (rowPairs df w) k) ∈ groupPairs (rowPairs df w) :=
      groupPairs_pair_mem (rowPairs df w) k hkmem
    have hpf : (k, sumKey (rowPairs df w) k) ∈
        (groupPairs (rowPairs df w)).filter (fun p => p.2 != 0) :=
      List.mem_filter.mpr ⟨hpair, by simpa using hsum⟩
    rw [hpermkeys.mem_iff]
    have : Prod.fst (k, sumKey (rowPairs df w) k) ∈
        ((groupPairs (rowPairs df w)).filter (fun p => p.2 != 0)).map Prod.fst :=
      List.mem_map_of_mem Prod.fst hpf
    exact this
  · have hcellmap : (((groupPairs (rowPairs df w)).filter (fun p => p.2 != 0)).map
          (fun p => p.1 ++ [p.2])).map
          (fun r => cell (df.cols.filter (fun c => c != w) ++ [w]) r w) =
        ((groupPairs (rowPairs df w)).filter (fun p => p.2 != 0)).map Prod.snd := by
      rw [List.map_map]
      exact map_congr_on _ _ _ (fun p hp => (hkf p hp).2)
    have hpermcells := (hperm.map
      (fun r => cell (df.cols.filter (fun c => c != w) ++ [w]) r w)).sum_eq
    rw [hpermcells, hcellmap, sum_snd_filter_nonzero, groupPairs_total, rowPairs_snds]

/-- C6 (witness): the compaction applied to the docstring example (five
rows, two sharing a pattern, one zero-count row) preserves the voter
total and yields pairwise-distinct patterns. -/
theorem C6_witness :
    ((RankedVote.from_dataframe_with_count
        ⟨["a", "b", "c", "count"],
         [[0, 1, 2, 3], [1, 2, 0, 5], [2, 0, 1, 2], [0, 1, 2, 1], [2, 1, 0, 0]]⟩
        "count").ranking.rows.map
      (fun r => cell (RankedVote.from_dataframe_with_count
        ⟨["a", "b", "c", "count"],
         [[0, 1, 2, 3], [1, 2, 0, 5], [2, 0, 1, 2], [0, 1, 2, 1], [2, 1, 0, 0]]⟩
        "count").ranking.cols r "count")).sum =
      ((([[0, 1, 2, 3], [1, 2, 0, 5], [2, 0, 1, 2], [0, 1, 2, 1], [2, 1, 0, 0]] :
          List (List Int)).map
        (fun r => cell ["a", "b", "c", "count"] r "count")).sum) ∧
    ((RankedVote.from_dataframe_with_count
        ⟨["a", "b", "c", "count"],
         [[0, 1, 2, 3], [1, 2, 0, 5], [2, 0, 1, 2], [0, 1, 2, 1], [2, 1, 0, 0]]⟩
        "count").ranking.rows.map
      (keyOf (RankedVote.from_dataframe_with_count
        ⟨["a", "b", "c", "count"],
         [[0, 1, 2, 3], [1, 2, 0, 5], [2, 0, 1, 2], [0, 1, 2, 1], [2, 1, 0, 0]]⟩
        "count").ranking.cols "count")).Nodup :=
  ⟨(C6_thm _ "count" (by decide)).2.2.2.2, (C6_thm _ "count" (by decide)).1⟩

theorem fdwc_keys_nodup (df : DF) (w : String)
    (hlen : ∀ r ∈ df.rows, r.length = df.cols.length) :
    ((RankedVote.from_dataframe_with_count df w).ranking.rows.map
      (keyOf (df.cols.filter (fun c => c != w) ++ [w]) w)).Nodup := by
  obtain ⟨hcols, hperm, hkf, hsorted⟩ := fdwc_core df w hlen
  have hkeymap : (((groupPairs (rowPairs df w)).filter (fun p => p.2 != 0)).map
        (fun p => p.1 ++ [p.2])).map
        (keyOf (df.cols.filter (fun c => c != w) ++ [w]) w) =
      ((groupPairs (rowPairs df w)).filter (fun p => p.2 != 0)).map Prod.fst := by
    rw [List.map_map]
    exact map_congr_on _ _ _ (fun p hp => (hkf p hp).1)
  rw [(hperm.map _).nodup_iff, hkeymap]
  have hsub : (((groupPairs (rowPairs df w)).filter (fun p => p.2 != 0)).map
      Prod.fst).Sublist ((groupPairs (rowPairs df w)).map Prod.fst) :=
    (List.filter_sublist _).map Prod.fst
  exact (groupPairs_keys_nodup (rowPairs df w)).sublist hsub

theorem fdwc_rows_cases (df : DF) (w : String)
    (hlen : ∀ r ∈ df.rows, r.length = df.cols.length) :
    ∀ r ∈ (RankedVote.from_dataframe_with_count df w).ranking.rows,
      keyOf (df.cols.filter (fun c => c != w) ++ [w]) w r ++
        [cell (df.cols.filter (fun c => c != w) ++ [w]) r w] = r ∧
      cell (df.cols.filter (fun c => c != w) ++ [w]) r w ≠ 0 := by
  obtain ⟨hcols, hperm, hkf, hsorted⟩ := fdwc_core df w hlen
  intro r hr
  obtain ⟨p, hpf, rfl⟩ := List.mem_map.mp (hperm.mem_iff.mp hr)
  obtain ⟨hkey, hcell⟩ := hkf p hpf
  rw [hkey, hcell]
  refine ⟨rfl, ?_⟩
  have := (List.mem_filter.mp hpf).2
  simpa using this

theorem fdwc_unfold (X : DF) (w : String) :
    RankedVote.from_dataframe_with_count X w =
      ⟨(remove_zero_weight_rows (sum_weights_by_group X w) w).sortRowsDesc
        (sortKeyCols X.cols w), w⟩ := rfl

theorem fdwc_idem (df : DF) (w : String)
    (hlen : ∀ r ∈ df.rows, r.length = df.cols.length) :
    RankedVote.from_dataframe_with_count
        (RankedVote.from_dataframe_with_count df w).ranking w =
      RankedVote.from_dataframe_with_count df w := by
  obtain ⟨hcols, hperm, hkf, hsorted⟩ := fdwc_core df w hlen
  have hF2 : (RankedVote.from_dataframe_with_count df w).ranking.cols.filter
      (fun c => c != w) = df.cols.filter (fun c => c != w) := by
    rw [hcols, List.filter_append]
    have h1 : (df.cols.filter (fun c => c != w)).filter (fun c => c != w) =
        df.cols.filter (fun c => c != w) := by
      rw [List.filter_eq_self]
      intro c hc
      exact (List.mem_filter.mp hc).2
    have h2 : ([w].filter (fun c => c != w)) = ([] : List String) := by simp
    rw [h1, h2, List.append_nil]
  have hRPkeys : (rowPairs (RankedVote.from_dataframe_with_count df w).ranking w).map
      Prod.fst = (RankedVote.from_dataframe_with_count df w).ranking.rows.map
        (keyOf (df.cols.filter (fun c => c != w) ++ [w]) w) := by
    rw [rowPairs_keys, hcols]
  have hnd2 : ((rowPairs (RankedVote.from_dataframe_with_count df w).ranking w).map
      Prod.fst).Nodup := by
    rw [hRPkeys]
    exact fdwc_keys_nodup df w hlen
  have hgpid : groupPairs (rowPairs (RankedVote.from_dataframe_with_count df w).ranking w) =
      rowPairs (RankedVote.from_dataframe_with_count df w).ranking w :=
    groupPairs_id _ hnd2
  have hmapback : (rowPairs (RankedVote.from_dataframe_with_count df w).ranking w).map
      (fun p => p.1 ++ [p.2]) =
      (RankedVote.from_dataframe_with_count df w).ranking.rows := by
    rw [rowPairs, List.map_map]
    have hcong : (RankedVote.from_dataframe_with_count df w).ranking.rows.map
        ((fun p : List Int × Int => p.1 ++ [p.2]) ∘
          (fun r => (keyOf (RankedVote.from_dataframe_with_count df w).ranking.cols w r,
            cell (RankedVote.from_dataframe_with_count df w).ranking.cols r w))) =
        (RankedVote.from_dataframe_with_count df w).ranking.rows.map id := by
      apply map_congr_on
      intro r hr
      simp only [Function.comp_apply, id]
      have := (fdwc_rows_cases df w hlen r hr).1
      rw [hcols]
      exact this
    rw [hcong, List.map_id]
  have hswbg : sum_weights_by_group (RankedVote.from_dataframe_with_count df w).ranking w =
      ⟨df.cols.filter (fun c => c != w) ++ [w],
       (RankedVote.from_dataframe_with_count df w).ranking.rows⟩ := by
    unfold sum_weights_by_group
    rw [hF2, hgpid, hmapback]
  have hrz : remove_zero_weight_rows
      (⟨df.cols.filter (fun c => c != w) ++ [w],
        (RankedVote.from_dataframe_with_count df w).ranking.rows⟩ : DF) w =
      ⟨df.cols.filter (fun c => c != w) ++ [w],
       (RankedVote.from_dataframe_with_count df w).ranking.rows⟩ := by
    unfold remove_zero_weight_rows
    congr 1
    rw [List.filter_eq_self]
    intro r hr
    have := (fdwc_rows_cases df w hlen r hr).2
    simpa using this
  have hkeys2 : sortKeyCols (RankedVote.from_dataframe_with_count df w).ranking.cols w =
      sortKeyCols df.cols w := by
    unfold sortKeyCols
    rw [hF2]
  have hfinal : RankedVote.from_dataframe_with_count
      (RankedVote.from_dataframe_with_count df w).ranking w =
      ⟨(⟨df.cols.filter (fun c => c != w) ++ [w],
          (RankedVote.from_dataframe_with_count df w).ranking.rows⟩ : DF).sortRowsDesc
        (sortKeyCols df.cols w), w⟩ := by
    rw [fdwc_unfold ((RankedVote.from_dataframe_with_count df w).ranking) w]
    rw [hswbg, hrz, hkeys2]
  rw [hfinal]
  unfold DF.sortRowsDesc
  have hsortid : insSort (rowGeB (df.cols.filter (fun c => c != w) ++ [w])
      (sortKeyCols df.cols w)) (RankedVote.from_dataframe_with_count df w).ranking.rows =
      (RankedVote.from_dataframe_with_count df w).ranking.rows :=
    insSort_eq_self _ _ hsorted
  have hout : (RankedVote.from_dataframe_with_count df w).ranking =
      ⟨df.cols.filter (fun c => c != w) ++ [w],
       (RankedVote.from_dataframe_with_count df w).ranking.rows⟩ := by
    cases hx : (RankedVote.from_dataframe_with_count df w).ranking with
    | mk xcols xrows =>
      rw [hx] at hcols
      simp only at hcols
      rw [hcols]
  rw [hsortid]
  cases hv : RankedVote.from_dataframe_with_count df w with
  | mk ranking ccol =>
    have hccol : ccol = w := by
      have : (RankedVote.from_dataframe_with_count df w).count_col = w := rfl
      rw [hv] at this
      exact this
    rw [hv] at hout
    simp only at hout
    rw [hccol, hout]

theorem swbg_hlen (X : DF) (w : String)
    (hlenX : ∀ r ∈ X.rows, r.length = X.cols.length) :
    ∀ r ∈ (sum_weights_by_group X w).rows,
      r.length = (sum_weights_by_group X w).cols.length := by
  unfold sum_weights_by_group
  intro r hr
  simp only at hr ⊢
  obtain ⟨p, hp, rfl⟩ := List.mem_map.mp hr
  have hplen := gp_key_length X w hlenX p hp
  simp [hplen]

/-- C7: the compaction used by the `RankedVote` factories is idempotent —
re-applying `from_dataframe_with_count` to an already-compacted ranking
table is the identity, so re-compacting the output of `from_dataframe` or
`from_dataframe_with_count` produces a `RankedVote` equal to the
original. -/
theorem C7_thm (df : DF) (w : String)
    (hlen : ∀ r ∈ df.rows, r.length = df.cols.length) :
    RankedVote.from_dataframe_with_count
        (RankedVote.from_dataframe_with_count df w).ranking w =
      RankedVote.from_dataframe_with_count df w ∧
    (∀ (d : DF) (v : RankedVote), (∀ r ∈ d.rows, r.length = d.cols.length) →
      RankedVote.from_dataframe d w = .ok v →
      RankedVote.from_dataframe_with_count v.ranking w = v) := by
  refine ⟨fdwc_idem df w hlen, ?_⟩
  intro d v hlend hok
  have hred : RankedVote.from_dataframe d w =
      (match compute_count_aggregated_dataframe d w with
       | .error e => .error e
       | .ok dd => .ok (RankedVote.from_dataframe_with_count dd w)) := rfl
  rw [hred] at hok
  cases hc : compute_count_aggregated_dataframe d w with
  | error e =>
    rw [hc] at hok
    exact Except.noConfusion hok
  | ok dd =>
    rw [hc] at hok
    obtain rfl : RankedVote.from_dataframe_with_count dd w = v := Except.ok.inj hok
    have hdd : dd = sum_weights_by_group
        ⟨d.cols ++ [w], d.rows.map (fun r => r ++ [1])⟩ w := by
      have hc2 : (match check_column_missing d w with
          | .error e => .error e
          | .ok _ => Except.ok (sum_weights_by_group
              ⟨d.cols ++ [w], d.rows.map (fun r => r ++ [1])⟩ w)) = Except.ok dd := by
        rw [← hc]
        rfl
      cases hm : check_column_missing d w with
      | error e =>
        rw [hm] at hc2
        exact Except.noConfusion hc2
      | ok u =>
        rw [hm] at hc2
        exact (Except.ok.inj hc2).symm
    have hlenY : ∀ r ∈ (⟨d.cols ++ [w], d.rows.map (fun r => r ++ [1])⟩ : DF).rows,
        r.length = (⟨d.cols ++ [w], d.rows.map (fun r => r ++ [1])⟩ : DF).cols.length := by
      intro r hr
      simp only at hr ⊢
      obtain ⟨r0, hr0, rfl⟩ := List.mem_map.mp hr
      simp [hlend r0 hr0]
    have hlendd : ∀ r ∈ dd.rows, r.length = dd.cols.length := by
      rw [hdd]
      exact swbg_hlen _ w hlenY
    exact fdwc_idem dd w hlendd

/-- C7 (witness): idempotence on the docstring example, and `from_dataframe`
on the raw 10-row table produces a vote that re-compaction leaves
unchanged. -/
theorem C7_witness :
    RankedVote.from_dataframe_with_count
        (RankedVote.from_dataframe_with_count
          ⟨["a", "b", "c", "count"],
           [[0, 1, 2, 3], [1, 2, 0, 5], [2, 0, 1, 2], [0, 1, 2, 1], [2, 1, 0, 0]]⟩
          "count").ranking "count" =
      RankedVote.from_dataframe_with_count
        ⟨["a", "b", "c", "count"],
         [[0, 1, 2, 3], [1, 2, 0, 5], [2, 0, 1, 2], [0, 1, 2, 1], [2, 1, 0, 0]]⟩
        "count" ∧
    RankedVote.from_dataframe_with_count
        (RankedVote.mk ⟨["a", "b", "c", "count"],
          [[1, 2, 0, 5], [0, 1, 2, 3], [2, 0, 1, 2]]⟩ "count").ranking "count" =
      RankedVote.mk ⟨["a", "b", "c", "count"],
        [[1, 2, 0, 5], [0, 1, 2, 3], [2, 0, 1, 2]]⟩ "count" :=
  ⟨(C7_thm _ "count" (by decide)).1,
   (C7_thm ⟨["a", "b", "c", "count"],
      [[0, 1, 2, 3], [1, 2, 0, 5], [2, 0, 1, 2], [0, 1, 2, 1], [2, 1, 0, 0]]⟩ "count"
      (by decide)).2
     ⟨["a", "b", "c"],
      [[0, 1, 2], [0, 1, 2], [0, 1, 2], [1, 2, 0], [1, 2, 0], [1, 2, 0], [1, 2, 0],
       [1, 2, 0], [2, 0, 1], [2, 0, 1]]⟩
     (RankedVote.mk ⟨["a", "b", "c", "count"],
       [[1, 2, 0, 5], [0, 1, 2, 3], [2, 0, 1, 2]]⟩ "count")
     (by decide) (by decide)⟩
